import Mathlib

/-!
# DSA signature verification demo: shallow embedding

Source: `src/dsa-verification.cpp`.  All quantities are `boost::multiprecision::cpp_int`
values, i.e. unbounded signed integers, embedded as `Int`.  The operators `/` and `%` of
`cpp_int` truncate toward zero (`Int.tdiv`, `Int.tmod`) and throw `std::overflow_error`
on a zero divisor; the throw is never caught, so it ends the run.  Every function of the
program is therefore embedded as a function into `Outcome`.

The three `while` loops are embedded by recursion on a fuel counter; the entry points pass
a fuel bound that is shown to be sufficient (`modExp_ne_outOfFuel`, `pow_ne_outOfFuel`,
`modInverse_ne_outOfFuel`).
-/

namespace DSA

/-- How a function of the program ends: it returns a value, or a `cpp_int` division or
remainder by zero throws, or the fuel of the embedding ran out (never happens at the entry
points). -/
inductive Outcome (α : Type) where
  | ok (v : α) : Outcome α
  | divByZero : Outcome α
  | outOfFuel : Outcome α
deriving DecidableEq, Repr

/-- Sequencing of two computations: the first fault ends the run. -/
def Outcome.bind {α β : Type} : Outcome α → (α → Outcome β) → Outcome β
  | .ok v, f => f v
  | .divByZero, _ => .divByZero
  | .outOfFuel, _ => .outOfFuel

instance : Monad Outcome where
  pure := Outcome.ok
  bind := Outcome.bind

/-- The `cpp_int` operator `/`: truncated quotient, throws on a zero divisor. -/
def cdiv (a b : Int) : Outcome Int :=
  if b = 0 then .divByZero else .ok (a.tdiv b)

/-- The `cpp_int` operator `%`: truncated remainder, throws on a zero divisor. -/
def cmod (a b : Int) : Outcome Int :=
  if b = 0 then .divByZero else .ok (a.tmod b)

/-- The `while (e > 0)` loop of `modExp` (lines 137-144), state `(x, b, e)`. -/
def modExpLoop : Nat → Int → Int → Int → Int → Outcome Int
  | 0, x, _, e, _ => if e > 0 then .outOfFuel else .ok x
  | fuel + 1, x, b, e, m =>
    if e > 0 then do
      let x1 ← if e.tmod 2 = 1 then cmod (x * b) m else pure x
      let b1 ← cmod (b * b) m
      modExpLoop fuel x1 b1 (e.tdiv 2) m
    else .ok x

/-- Function `modExp` (lines 131-147). -/
def modExp (b e m : Int) : Outcome Int := do
  let x := 1
  let b0 ← cmod b m
  modExpLoop e.toNat x b0 e m

/-- The `while (e > 0)` loop of `pow` (lines 210-217), state `(x, b, e)`. -/
def powLoop : Nat → Int → Int → Int → Outcome Int
  | 0, x, _, e => if e > 0 then .outOfFuel else .ok x
  | fuel + 1, x, b, e =>
    if e > 0 then
      powLoop fuel (if e.tmod 2 = 1 then x * b else x) (b * b) (e.tdiv 2)
    else .ok x

/-- Function `pow` (lines 206-220). -/
def pow (b e : Int) : Outcome Int :=
  powLoop e.toNat 1 b e

/-- The `while (a > 1)` loop of `modInverse` (lines 159-174), state `(a, m, x, y)`;
returns the values of `a` and `x` at loop exit. -/
def modInverseLoop : Nat → Int → Int → Int → Int → Outcome (Int × Int)
  | 0, a, _, x, _ => if a > 1 then .outOfFuel else .ok (a, x)
  | fuel + 1, a, m, x, y =>
    if a > 1 then do
      let q ← cdiv a m
      let t := m
      let m1 ← cmod a m
      modInverseLoop fuel t m1 y (x - q * y)
    else .ok (a, x)

/-- Function `modInverse` (lines 151-185). -/
def modInverse (a m : Int) : Outcome Int :=
  let m0 := m
  if m = 1 then .ok 0
  else do
    let (a1, x) ← modInverseLoop (m.natAbs + 1) a m 1 0
    if a1 ≠ 1 then pure 0
    else if x < 0 then pure (x + m0)
    else pure x

/-- The four output parameters of `verifySignature` and its boolean result. -/
structure VerifyOut where
  w : Int
  u1 : Int
  u2 : Int
  v : Int
  valid : Bool
deriving DecidableEq, Repr

/-- Function `verifySignature` (lines 188-203). -/
def verifySignature (p q g y r s hash : Int) : Outcome VerifyOut := do
  let w ← modInverse s q
  let u1 ← cmod (hash * w) q
  let u2 ← cmod (r * w) q
  let t1 ← pow g u1
  let t2 ← pow y u2
  let t ← cmod (t1 * t2) p
  let v ← cmod t q
  pure ⟨w, u1, u2, v, decide (v = r)⟩

/-- The values `g, y, r, s` computed by `main` before its guard (lines 43-56). -/
structure Signed where
  g : Int
  y : Int
  r : Int
  s : Int
deriving DecidableEq, Repr

/-- Lines 43-56 of `main`: generator, public key and the signature of `hash1`. -/
def signingSteps (p q h x k hash1 : Int) : Outcome Signed := do
  let temp ← cdiv (p - 1) q
  let g ← modExp h temp p
  let y ← modExp g x p
  let k_inv ← modInverse k q
  let t ← modExp g k p
  let r ← cmod t q
  let s ← cmod (k_inv * (hash1 + x * r)) q
  pure ⟨g, y, r, s⟩

/-- What a run of `main` that reaches a `return` has reported: either the guard of line 59
tripped (only `g`, `y` were printed, no verification was made), or both verifications ran. -/
inductive Run where
  | rejected (g y : Int) : Run
  | completed (sig : Signed) (first second : VerifyOut) : Run
deriving DecidableEq, Repr

/-- The value returned by `main`: `-1` at line 62, `0` at line 88. -/
def Run.exitStatus : Run → Int
  | .rejected _ _ => -1
  | .completed _ _ _ => 0

/-- Number of `verifySignature` calls made during the run. -/
def Run.verifyCalls : Run → Nat
  | .rejected _ _ => 0
  | .completed _ _ _ => 2

/-- Function `main` (lines 33-89) on the seven integers read by `readInput`. -/
def main (p q h x k hash1 hash2 : Int) : Outcome Run := do
  let sig ← signingSteps p q h x k hash1
  if sig.r < 1 ∨ sig.s < 1 then
    pure (.rejected sig.g sig.y)
  else do
    let first ← verifySignature p q sig.g sig.y sig.r sig.s hash1
    let second ← verifySignature p q sig.g sig.y sig.r sig.s hash2
    pure (.completed sig first second)

/-- Invariant of the loop of `modInverse`, relative to the original arguments `a0`, `m0`:
the two coefficients have opposite signs and satisfy the Bezout relation with the current
`(a, m)`, and each is congruent to its remainder after multiplication by `a0`. -/
def BezoutInv (a0 m0 a m x y : Int) : Prop :=
  ((0 ≤ x ∧ y ≤ 0 ∧ m * x - a * y = m0) ∨ (x ≤ 0 ∧ 0 ≤ y ∧ a * y - m * x = m0)) ∧
  x * a0 ≡ a [ZMOD m0] ∧ y * a0 ≡ m [ZMOD m0]

/-- The verification steps as section 4.4 of the specification words them, for a given
inverse `w`: mathematical remainders and exact powers. -/
def verifySpec (p q g y r hash w : Int) : VerifyOut :=
  let u1 := (hash * w) % q
  let u2 := (r * w) % q
  let v := ((g ^ u1.toNat * y ^ u2.toNat) % p) % q
  ⟨w, u1, u2, v, decide (v = r)⟩

/-- The function `verifySignature` with its two calls of `pow` replaced by calls of `modExp`
modulo `p`, i.e. the reduced form `((g^u1 mod p) * (y^u2 mod p)) mod p mod q` of section 4.2
of the specification. -/
def verifySignatureReduced (p q g y r s hash : Int) : Outcome VerifyOut := do
  let w ← modInverse s q
  let u1 ← cmod (hash * w) q
  let u2 ← cmod (r * w) q
  let t1 ← modExp g u1 p
  let t2 ← modExp y u2 p
  let t ← cmod (t1 * t2) p
  let v ← cmod t q
  pure ⟨w, u1, u2, v, decide (v = r)⟩

/-! ## Basic facts about `Outcome` and the two division operators -/

@[simp] theorem bind_ok {α β : Type} (v : α) (f : α → Outcome β) :
    (Outcome.ok v >>= f) = f v := rfl

@[simp] theorem bind_divByZero {α β : Type} (f : α → Outcome β) :
    ((Outcome.divByZero : Outcome α) >>= f) = Outcome.divByZero := rfl

@[simp] theorem bind_outOfFuel {α β : Type} (f : α → Outcome β) :
    ((Outcome.outOfFuel : Outcome α) >>= f) = Outcome.outOfFuel := rfl

@[simp] theorem pure_eq_ok {α : Type} (v : α) : (pure v : Outcome α) = Outcome.ok v := rfl

theorem cmod_of_ne {a b : Int} (h : b ≠ 0) : cmod a b = .ok (a.tmod b) := by
  simp [cmod, h]

theorem cdiv_of_ne {a b : Int} (h : b ≠ 0) : cdiv a b = .ok (a.tdiv b) := by
  simp [cdiv, h]

theorem cmod_zero (a : Int) : cmod a 0 = .divByZero := by
  simp [cmod]

theorem cdiv_zero (a : Int) : cdiv a 0 = .divByZero := by
  simp [cdiv]

/-- On non-negative operands with a positive divisor `%` is the mathematical remainder. -/
theorem cmod_of_nonneg {a b : Int} (ha : 0 ≤ a) (hb : 0 < b) : cmod a b = .ok (a % b) := by
  rw [cmod_of_ne (ne_of_gt hb), Int.tmod_eq_emod ha (le_of_lt hb)]

/-- On non-negative operands with a positive divisor `/` is the floor quotient. -/
theorem cdiv_of_nonneg {a b : Int} (ha : 0 ≤ a) (hb : 0 < b) : cdiv a b = .ok (a / b) := by
  rw [cdiv_of_ne (ne_of_gt hb), Int.tdiv_eq_ediv ha (le_of_lt hb)]

/-! ## `pow` -/

theorem powLoop_nonpos (fuel : Nat) (x b e : Int) (he : e ≤ 0) :
    powLoop fuel x b e = .ok x := by
  cases fuel <;> simp [powLoop, not_lt.mpr he]

theorem powLoop_eq (fuel : Nat) : ∀ (x b : Int) (n : Nat), n ≤ fuel →
    powLoop fuel x b (n : Int) = .ok (x * b ^ n) := by
  induction fuel with
  | zero =>
    intro x b n hn
    have : n = 0 := by omega
    subst this
    simp [powLoop]
  | succ fuel ih =>
    intro x b n hn
    by_cases h0 : n = 0
    · subst h0
      simp [powLoop]
    · have hpos : (0 : Int) < (n : Int) := by omega
      have hdiv : (n : Int).tdiv 2 = ((n / 2 : Nat) : Int) := by
        rw [Int.tdiv_eq_ediv (by omega) (by norm_num)]; norm_cast
      have hmod : (n : Int).tmod 2 = ((n % 2 : Nat) : Int) := by
        rw [Int.tmod_eq_emod (by omega) (by norm_num)]; norm_cast
      have hstep : powLoop (fuel + 1) x b (n : Int)
          = powLoop fuel (if (n : Int).tmod 2 = 1 then x * b else x) (b * b)
              ((n : Int).tdiv 2) := by
        simp [powLoop, hpos]
      rw [hstep, hdiv, hmod, ih _ _ _ (by omega)]
      congr 1
      have hn2 : n = 2 * (n / 2) + n % 2 := (Nat.div_add_mod n 2).symm
      rcases Nat.mod_two_eq_zero_or_one n with h | h
      · rw [h] at hn2 ⊢
        simp only [Nat.cast_zero, zero_ne_one, if_false]
        conv_rhs => rw [hn2]
        rw [add_zero, pow_mul, pow_two]
      · rw [h] at hn2 ⊢
        simp only [Nat.cast_one, if_true]
        conv_rhs => rw [hn2]
        rw [pow_succ, pow_mul, pow_two]; ring

/-- The function `pow` returns the exact power for a non-negative exponent. -/
theorem pow_eq (b : Int) (n : Nat) : pow b (n : Int) = .ok (b ^ n) := by
  unfold pow
  rw [Int.toNat_natCast, powLoop_eq n 1 b n le_rfl, one_mul]

theorem pow_of_nonneg (b e : Int) (he : 0 ≤ e) : pow b e = .ok (b ^ e.toNat) := by
  obtain ⟨n, rfl⟩ := Int.eq_ofNat_of_zero_le he
  simpa using pow_eq b n

/-! ## `modExp` -/

theorem modExpLoop_nonpos (fuel : Nat) (x b e m : Int) (he : e ≤ 0) :
    modExpLoop fuel x b e m = .ok x := by
  cases fuel <;> simp [modExpLoop, not_lt.mpr he]

theorem modExpLoop_eq (fuel : Nat) : ∀ (x b m : Int) (n : Nat), 0 ≤ x → 0 ≤ b → 0 < m →
    0 < n → n ≤ fuel →
    modExpLoop fuel x b (n : Int) m = .ok ((x * b ^ n) % m) := by
  induction fuel with
  | zero => intro x b m n _ _ _ hn hf; omega
  | succ fuel ih =>
    intro x b m n hx hb hm hn hf
    have hpos : (0 : Int) < (n : Int) := by omega
    have hdiv : (n : Int).tdiv 2 = ((n / 2 : Nat) : Int) := by
      rw [Int.tdiv_eq_ediv (by omega) (by norm_num)]; norm_cast
    have hmod : (n : Int).tmod 2 = ((n % 2 : Nat) : Int) := by
      rw [Int.tmod_eq_emod (by omega) (by norm_num)]; norm_cast
    have hbb : cmod (b * b) m = .ok ((b * b) % m) := cmod_of_nonneg (mul_nonneg hb hb) hm
    have hxb : cmod (x * b) m = .ok ((x * b) % m) := cmod_of_nonneg (mul_nonneg hx hb) hm
    have hn2 : n = 2 * (n / 2) + n % 2 := (Nat.div_add_mod n 2).symm
    have hb1 : (0 : Int) ≤ (b * b) % m := Int.emod_nonneg _ (ne_of_gt hm)
    have hsq : ((b * b) % m) ^ (n / 2) ≡ b ^ (2 * (n / 2)) [ZMOD m] := by
      rw [pow_mul, pow_two]
      exact (Int.mod_modEq _ _).pow _
    rcases Nat.mod_two_eq_zero_or_one n with h | h
    · have hstep : modExpLoop (fuel + 1) x b (n : Int) m
          = modExpLoop fuel x ((b * b) % m) ((n / 2 : Nat) : Int) m := by
        simp [modExpLoop, hpos, hdiv, hmod, h, hbb]
      have hhalf : 0 < n / 2 := by omega
      rw [hstep, ih _ _ _ _ hx hb1 hm hhalf (by omega)]
      congr 1
      have : x * ((b * b) % m) ^ (n / 2) ≡ x * b ^ n [ZMOD m] := by
        conv_rhs => rw [hn2, h, add_zero]
        exact Int.ModEq.mul_left _ hsq
      exact this
    · have hstep : modExpLoop (fuel + 1) x b (n : Int) m
          = modExpLoop fuel ((x * b) % m) ((b * b) % m) ((n / 2 : Nat) : Int) m := by
        simp [modExpLoop, hpos, hdiv, hmod, h, hbb, hxb]
      have hx1 : (0 : Int) ≤ (x * b) % m := Int.emod_nonneg _ (ne_of_gt hm)
      rw [hstep]
      by_cases hhalf : n / 2 = 0
      · have hn1 : n = 1 := by omega
        rw [hhalf, modExpLoop_nonpos _ _ _ _ _ (by simp), hn1, pow_one]
      · rw [ih _ _ _ _ hx1 hb1 hm (Nat.pos_of_ne_zero hhalf) (by omega)]
        congr 1
        have : (x * b) % m * ((b * b) % m) ^ (n / 2) ≡ x * b ^ n [ZMOD m] := by
          conv_rhs => rw [hn2, h, pow_succ, ← mul_assoc, mul_right_comm]
          exact Int.ModEq.mul (Int.mod_modEq _ _) hsq
        exact this

/-- The function `modExp` computes `b ^ e mod m` on non-negative arguments, except that the
accumulator `x = 1` is returned unreduced when the loop body never runs. -/
theorem modExp_nat (b m : Int) (n : Nat) (hb : 0 ≤ b) (hm : 0 < m) :
    modExp b (n : Int) m = .ok (if n = 0 then 1 else (b ^ n) % m) := by
  have hb0 : cmod b m = .ok (b % m) := cmod_of_nonneg hb hm
  have hb1 : (0 : Int) ≤ b % m := Int.emod_nonneg _ (ne_of_gt hm)
  unfold modExp
  simp only [hb0, bind_ok, Int.toNat_natCast]
  by_cases h0 : n = 0
  · subst h0
    simp [modExpLoop]
  · rw [modExpLoop_eq n 1 _ m n (by norm_num) hb1 hm (Nat.pos_of_ne_zero h0) le_rfl, if_neg h0]
    congr 1
    have : 1 * (b % m) ^ n ≡ b ^ n [ZMOD m] := by
      rw [one_mul]; exact (Int.mod_modEq _ _).pow _
    exact this

/-- For a modulus above one `modExp` is modular exponentiation. -/
theorem modExp_eq (b m : Int) (n : Nat) (hb : 0 ≤ b) (hm : 1 < m) :
    modExp b (n : Int) m = .ok ((b ^ n) % m) := by
  rw [modExp_nat b m n hb (by omega)]
  by_cases h0 : n = 0
  · subst h0
    rw [if_pos rfl, pow_zero, Int.emod_eq_of_lt (by norm_num) hm]
  · rw [if_neg h0]

/-! ## `modInverse` -/

theorem modInverseLoop_le_one (fuel : Nat) (a m x y : Int) (ha : a ≤ 1) :
    modInverseLoop fuel a m x y = .ok (a, x) := by
  cases fuel <;> simp [modInverseLoop, not_lt.mpr ha]

/-- One iteration of the loop of `modInverse` on non-negative `a`, positive `m`. -/
theorem modInverseLoop_step (fuel A M : Nat) (x y : Int) (hA : 1 < A) (hM : M ≠ 0) :
    modInverseLoop (fuel + 1) (A : Int) (M : Int) x y
      = modInverseLoop fuel (M : Int) ((A % M : Nat) : Int) y (x - ((A / M : Nat) : Int) * y) := by
  have hA1 : (1 : Int) < (A : Int) := by exact_mod_cast hA
  have hM0 : (M : Int) ≠ 0 := by exact_mod_cast hM
  simp only [modInverseLoop, gt_iff_lt, hA1, if_true, cdiv_of_ne hM0, cmod_of_ne hM0, bind_ok]
  rfl

/-- The loop of `modInverse` throws as soon as the divisor is zero while `a > 1`. -/
theorem modInverseLoop_zero_divisor (fuel : Nat) (a x y : Int) (ha : 1 < a) :
    modInverseLoop (fuel + 1) a 0 x y = .divByZero := by
  simp [modInverseLoop, ha, cdiv_zero]

/-- On coprime arguments the loop of `modInverse` returns. -/
theorem modInverseLoop_ok_of_coprime (fuel : Nat) : ∀ (A M : Nat) (x y : Int),
    Nat.gcd A M = 1 → M < fuel → ∃ r, modInverseLoop fuel (A : Int) (M : Int) x y = .ok r := by
  induction fuel with
  | zero => intro A M x y _ hf; omega
  | succ fuel ih =>
    intro A M x y hg hf
    by_cases hA : 1 < A
    · have hM : M ≠ 0 := by
        rintro rfl
        rw [Nat.gcd_zero_right] at hg
        omega
      rw [modInverseLoop_step fuel A M x y hA hM]
      by_cases hM1 : M = 1
      · subst hM1
        exact ⟨_, modInverseLoop_le_one _ _ _ _ _ (by norm_num)⟩
      · apply ih
        · rw [Nat.gcd_comm, ← Nat.gcd_rec, Nat.gcd_comm]; exact hg
        · have := Nat.mod_lt A (Nat.pos_of_ne_zero hM)
          omega
    · exact ⟨_, modInverseLoop_le_one _ _ _ _ _ (by exact_mod_cast not_lt.mp hA)⟩

theorem BezoutInv_step (a0 m0 : Int) (A M : Nat) (x y : Int)
    (h : BezoutInv a0 m0 A M x y) :
    BezoutInv a0 m0 M ((A % M : Nat) : Int) y (x - ((A / M : Nat) : Int) * y) := by
  obtain ⟨hs, hx, hy⟩ := h
  have hq : (0 : Int) ≤ ((A / M : Nat) : Int) := Int.natCast_nonneg _
  have hmod : ((A % M : Nat) : Int) = A - M * ((A / M : Nat) : Int) := by
    have := Nat.div_add_mod A M
    have h2 : (M : Int) * ((A / M : Nat) : Int) + ((A % M : Nat) : Int) = A := by exact_mod_cast this
    linarith
  refine ⟨?_, hy, ?_⟩
  · rcases hs with ⟨h1, h2, h3⟩ | ⟨h1, h2, h3⟩
    · right
      refine ⟨h2, ?_, ?_⟩
      · nlinarith [mul_nonneg hq (neg_nonneg.mpr h2)]
      · rw [hmod]; linear_combination h3
    · left
      refine ⟨h2, ?_, ?_⟩
      · nlinarith [mul_nonneg hq h2]
      · rw [hmod]; linear_combination h3
  · rw [hmod]
    have := (hx.sub (hy.mul_left ((A / M : Nat) : Int)))
    have e1 : (x - ((A / M : Nat) : Int) * y) * a0 = x * a0 - ((A / M : Nat) : Int) * (y * a0) := by
      ring
    have e2 : (A : Int) - M * ((A / M : Nat) : Int) = A - ((A / M : Nat) : Int) * M := by ring
    rw [e1, e2]
    exact this

/-- Whenever the loop of `modInverse`, entered with `a > 1`, returns, it returns `a = 1` and
a coefficient `x` with `|x| < m0` that inverts `a0` modulo `m0`. -/
theorem modInverseLoop_spec (a0 m0 : Int) (hm0 : 0 < m0) (fuel : Nat) :
    ∀ (A M : Nat) (x y : Int) (r : Int × Int), 1 < A → BezoutInv a0 m0 A M x y →
    modInverseLoop fuel (A : Int) (M : Int) x y = .ok r →
    r.1 = 1 ∧ -m0 < r.2 ∧ r.2 < m0 ∧ r.2 * a0 ≡ 1 [ZMOD m0] := by
  induction fuel with
  | zero =>
    intro A M x y r hA _ h
    have hA1 : (1 : Int) < (A : Int) := by exact_mod_cast hA
    simp [modInverseLoop, hA1] at h
  | succ fuel ih =>
    intro A M x y r hA hJ h
    have hA1 : (1 : Int) < (A : Int) := by exact_mod_cast hA
    by_cases hM : M = 0
    · subst hM
      rw [Nat.cast_zero, modInverseLoop_zero_divisor fuel _ x y hA1] at h
      cases h
    · rw [modInverseLoop_step fuel A M x y hA hM] at h
      by_cases hM1 : M = 1
      · subst hM1
        rw [modInverseLoop_le_one _ _ _ _ _ (by norm_num)] at h
        cases h
        obtain ⟨hs, _, hy⟩ := hJ
        have hA2 : (2 : Int) ≤ (A : Int) := by omega
        refine ⟨rfl, ?_, ?_, by simpa using hy⟩
        · rcases hs with ⟨h1, h2, h3⟩ | ⟨h1, h2, h3⟩
          · simp only [Nat.cast_one] at h3 ⊢
            nlinarith [mul_nonneg (sub_nonneg.mpr hA2) (neg_nonneg.mpr h2)]
          · simp only [Nat.cast_one] at h3 ⊢
            linarith
        · rcases hs with ⟨h1, h2, h3⟩ | ⟨h1, h2, h3⟩
          · simp only [Nat.cast_one] at h3 ⊢
            linarith
          · simp only [Nat.cast_one] at h3 ⊢
            nlinarith [mul_nonneg (sub_nonneg.mpr hA2) h2]
      · exact ih M (A % M) _ _ r (by omega) (BezoutInv_step a0 m0 A M x y hJ) h

theorem BezoutInv_init (A M : Nat) : BezoutInv (A : Int) (M : Int) A M 1 0 := by
  refine ⟨Or.inl ⟨by norm_num, le_rfl, by ring⟩, by rw [one_mul], ?_⟩
  rw [zero_mul]
  exact (Int.emod_emod_of_dvd 0 (dvd_refl _)).symm.trans (by simp [Int.ModEq])

theorem modInverse_of_loop_ok (a m : Int) (hm : m ≠ 1) (r : Int × Int)
    (h : modInverseLoop (m.natAbs + 1) a m 1 0 = .ok r) :
    modInverse a m = .ok (if r.1 ≠ 1 then 0 else if r.2 < 0 then r.2 + m else r.2) := by
  obtain ⟨r1, r2⟩ := r
  unfold modInverse
  simp only [hm, if_false, h, bind_ok]
  split_ifs <;> rfl

theorem modInverse_of_loop_divByZero (a m : Int) (hm : m ≠ 1)
    (h : modInverseLoop (m.natAbs + 1) a m 1 0 = .divByZero) :
    modInverse a m = .divByZero := by
  unfold modInverse
  simp only [hm, if_false, h, bind_divByZero]

theorem modInverse_of_loop_outOfFuel (a m : Int) (hm : m ≠ 1)
    (h : modInverseLoop (m.natAbs + 1) a m 1 0 = .outOfFuel) :
    modInverse a m = .outOfFuel := by
  unfold modInverse
  simp only [hm, if_false, h, bind_outOfFuel]

/-- Any value returned by `modInverse` on `a ≥ 0`, `m > 1` is a residue modulo `m`. -/
theorem modInverse_range_nat (A M : Nat) (hM : 1 < M) (v : Int)
    (h : modInverse (A : Int) (M : Int) = .ok v) : 0 ≤ v ∧ v < M := by
  have hM1 : (M : Int) ≠ 1 := by exact_mod_cast (by omega : M ≠ 1)
  have hMpos : (0 : Int) < (M : Int) := by exact_mod_cast (by omega : 0 < M)
  cases hl : modInverseLoop ((M : Int).natAbs + 1) (A : Int) (M : Int) 1 0 with
  | divByZero => rw [modInverse_of_loop_divByZero _ _ hM1 hl] at h; cases h
  | outOfFuel => rw [modInverse_of_loop_outOfFuel _ _ hM1 hl] at h; cases h
  | ok r =>
    rw [modInverse_of_loop_ok _ _ hM1 r hl] at h
    injection h with h
    by_cases hA : 1 < A
    · obtain ⟨h1, h2, h3, _⟩ :=
        modInverseLoop_spec (A : Int) (M : Int) hMpos _ A M 1 0 r hA (BezoutInv_init A M) hl
      rw [← h]
      simp only [h1, ne_eq, not_true_eq_false, if_false]
      split_ifs with hneg
      · constructor <;> linarith
      · exact ⟨not_lt.mp hneg, h3⟩
    · rw [modInverseLoop_le_one _ _ _ _ _ (by exact_mod_cast not_lt.mp hA)] at hl
      injection hl with hl
      subst hl
      rw [← h]
      have hM2 : (1 : Int) < (M : Int) := by exact_mod_cast hM
      simp only []
      split_ifs <;> constructor <;> linarith

/-- On `a ≥ 0`, `m > 1` coprime, `modInverse` returns the inverse of `a` in `[0, m)`. -/
theorem modInverse_of_coprime (A M : Nat) (hM : 1 < M) (hg : Nat.gcd A M = 1) :
    ∃ v, modInverse (A : Int) (M : Int) = .ok v ∧ 0 ≤ v ∧ v < M ∧ ((A : Int) * v) % M = 1 := by
  have hM1 : (M : Int) ≠ 1 := by exact_mod_cast (by omega : M ≠ 1)
  have hMpos : (0 : Int) < (M : Int) := by exact_mod_cast (by omega : 0 < M)
  have hM2 : (1 : Int) < (M : Int) := by exact_mod_cast hM
  obtain ⟨r, hl⟩ := modInverseLoop_ok_of_coprime ((M : Int).natAbs + 1) A M 1 0 hg
    (by simp)
  have hv := modInverse_of_loop_ok _ _ hM1 r hl
  obtain ⟨hv0, hvM⟩ := modInverse_range_nat A M hM _ hv
  refine ⟨_, hv, hv0, hvM, ?_⟩
  have hone : (1 : Int) % M = 1 := Int.emod_eq_of_lt (by norm_num) hM2
  by_cases hA : 1 < A
  · obtain ⟨h1, _, _, h4⟩ :=
      modInverseLoop_spec (A : Int) (M : Int) hMpos _ A M 1 0 r hA (BezoutInv_init A M) hl
    simp only [h1, ne_eq, not_true_eq_false, if_false]
    have key : ∀ z : Int, z ≡ r.2 [ZMOD (M : Int)] → ((A : Int) * z) % M = 1 := by
      intro z hz
      have : (A : Int) * z ≡ 1 [ZMOD (M : Int)] := by
        have := (hz.mul_right (A : Int)).trans h4
        rwa [mul_comm] at this
      rw [this.eq, hone]
    split_ifs
    · apply key
      have : r.2 + (M : Int) ≡ r.2 + 0 [ZMOD (M : Int)] :=
        Int.ModEq.add_left _ (by simp [Int.ModEq])
      rwa [add_zero] at this
    · exact key _ (Int.ModEq.refl _)
  · have hA1 : A = 1 := by
      rcases Nat.lt_or_ge 0 A with h | h
      · omega
      · have : A = 0 := by omega
        subst this
        rw [Nat.gcd_zero_left] at hg
        omega
    subst hA1
    rw [modInverseLoop_le_one _ _ _ _ _ (by norm_num)] at hl
    injection hl with hl
    subst hl
    simp [hone]

/-- On `a ≥ 2`, `m ≥ 0` not coprime, the loop of `modInverse` reaches a zero divisor with
`a > 1` and throws. -/
theorem modInverseLoop_divByZero_of_not_coprime (fuel : Nat) : ∀ (A M : Nat) (x y : Int),
    1 < A → Nat.gcd A M ≠ 1 → M < fuel →
    modInverseLoop fuel (A : Int) (M : Int) x y = .divByZero := by
  induction fuel with
  | zero => intro A M x y _ _ hf; omega
  | succ fuel ih =>
    intro A M x y hA hg hf
    by_cases hM : M = 0
    · subst hM
      exact modInverseLoop_zero_divisor fuel _ x y (by exact_mod_cast hA)
    · rw [modInverseLoop_step fuel A M x y hA hM]
      have hg2 : Nat.gcd M (A % M) ≠ 1 := by
        rw [Nat.gcd_comm, ← Nat.gcd_rec, Nat.gcd_comm]; exact hg
      have hM1 : 1 < M := by
        rcases Nat.lt_or_ge 1 M with h | h
        · exact h
        · have : M = 1 := by omega
          subst this
          simp at hg
      apply ih M (A % M) _ _ hM1 hg2
      have := Nat.mod_lt A (Nat.pos_of_ne_zero hM)
      omega

/-- On `a ≥ 2`, `m ≥ 0` with `gcd(a, m) ≠ 1`, `modInverse` throws instead of returning 0. -/
theorem modInverse_divByZero_of_not_coprime (A M : Nat) (hA : 1 < A) (hg : Nat.gcd A M ≠ 1) :
    modInverse (A : Int) (M : Int) = .divByZero := by
  have hM1 : (M : Int) ≠ 1 := by
    intro h
    have : M = 1 := by exact_mod_cast h
    subst this
    simp at hg
  exact modInverse_of_loop_divByZero _ _ hM1
    (modInverseLoop_divByZero_of_not_coprime _ A M 1 0 hA hg (by simp))

/-! ## `verifySignature` -/

/-- The inverse returned by `modInverse` on `s ≥ 0`, `q ≥ 1` is never negative. -/
theorem modInverse_nonneg (s q w : Int) (hs : 0 ≤ s) (hq : 1 ≤ q)
    (h : modInverse s q = .ok w) : 0 ≤ w := by
  obtain ⟨S, rfl⟩ := Int.eq_ofNat_of_zero_le hs
  obtain ⟨Q, rfl⟩ := Int.eq_ofNat_of_zero_le (by omega : 0 ≤ q)
  by_cases hQ : Q = 1
  · subst hQ
    simp [modInverse] at h
    omega
  · exact (modInverse_range_nat S Q (by omega) w h).1

/-- On non-negative arguments with `p ≥ 1`, `q ≥ 1`, `verifySignature` is `modInverse`
followed by the steps of the specification. -/
theorem verifySignature_eq (p q g y r s hash : Int) (hp : 1 ≤ p) (hq : 1 ≤ q) (hg : 0 ≤ g)
    (hy : 0 ≤ y) (hr : 0 ≤ r) (hs : 0 ≤ s) (hh : 0 ≤ hash) :
    verifySignature p q g y r s hash
      = (modInverse s q >>= fun w => Outcome.ok (verifySpec p q g y r hash w)) := by
  cases hw : modInverse s q with
  | divByZero => simp [verifySignature, hw]
  | outOfFuel => simp [verifySignature, hw]
  | ok w =>
    have hw0 : 0 ≤ w := modInverse_nonneg s q w hs hq hw
    have hq0 : 0 < q := by omega
    have hp0 : 0 < p := by omega
    have hu1 : (0 : Int) ≤ (hash * w) % q := Int.emod_nonneg _ (ne_of_gt hq0)
    have hu2 : (0 : Int) ≤ (r * w) % q := Int.emod_nonneg _ (ne_of_gt hq0)
    have ht : (0 : Int) ≤ g ^ ((hash * w) % q).toNat * y ^ ((r * w) % q).toNat :=
      mul_nonneg (pow_nonneg hg _) (pow_nonneg hy _)
    simp only [verifySignature, hw, bind_ok, cmod_of_nonneg (mul_nonneg hh hw0) hq0,
      cmod_of_nonneg (mul_nonneg hr hw0) hq0, pow_of_nonneg g _ hu1, pow_of_nonneg y _ hu2,
      cmod_of_nonneg ht hp0, cmod_of_nonneg (Int.emod_nonneg _ (ne_of_gt hp0)) hq0,
      pure_eq_ok, verifySpec]

/-! ## The fuel passed by the entry points is sufficient -/

theorem pow_ne_outOfFuel (b e : Int) : pow b e ≠ .outOfFuel := by
  rcases le_or_lt e 0 with he | he
  · unfold pow
    rw [powLoop_nonpos _ _ _ _ he]
    exact fun h => by cases h
  · rw [pow_of_nonneg b e (le_of_lt he)]
    exact fun h => by cases h

theorem modExpLoop_ne_outOfFuel (fuel : Nat) : ∀ (x b e m : Int), m ≠ 0 → e.toNat ≤ fuel →
    modExpLoop fuel x b e m ≠ .outOfFuel := by
  induction fuel with
  | zero =>
    intro x b e m _ hf
    rw [modExpLoop_nonpos _ _ _ _ _ (by omega)]
    exact fun h => by cases h
  | succ fuel ih =>
    intro x b e m hm hf
    by_cases he : 0 < e
    · have hstep : modExpLoop (fuel + 1) x b e m
          = modExpLoop fuel (if e.tmod 2 = 1 then (x * b).tmod m else x) ((b * b).tmod m)
              (e.tdiv 2) m := by
        by_cases h2 : e.tmod 2 = 1 <;> simp [modExpLoop, he, h2, cmod_of_ne hm]
      rw [hstep]
      apply ih _ _ _ _ hm
      rw [Int.tdiv_eq_ediv (le_of_lt he) (by norm_num)]
      omega
    · rw [modExpLoop_nonpos _ _ _ _ _ (not_lt.mp he)]
      exact fun h => by cases h

theorem modExp_ne_outOfFuel (b e m : Int) : modExp b e m ≠ .outOfFuel := by
  by_cases hm : m = 0
  · subst hm
    simp [modExp, cmod_zero]
  · simp only [modExp, cmod_of_ne hm, bind_ok]
    exact modExpLoop_ne_outOfFuel _ _ _ _ _ hm le_rfl

theorem natAbs_tmod_lt (a m : Int) (ha : 0 ≤ a) (hm : m ≠ 0) :
    (a.tmod m).natAbs < m.natAbs := by
  rcases lt_or_gt_of_ne hm with h | h
  · have h1 : a.tmod m = a % (-m) := by
      rw [← Int.tmod_neg, Int.tmod_eq_emod ha (by omega)]
    have h2 := Int.emod_nonneg a (by omega : -m ≠ 0)
    have h3 := Int.emod_lt_of_pos a (by omega : 0 < -m)
    omega
  · have h1 : a.tmod m = a % m := Int.tmod_eq_emod ha (by omega)
    have h2 := Int.emod_nonneg a hm
    have h3 := Int.emod_lt_of_pos a h
    omega

theorem modInverseLoop_ne_outOfFuel (fuel : Nat) : ∀ (a m x y : Int), m.natAbs < fuel →
    modInverseLoop fuel a m x y ≠ .outOfFuel := by
  induction fuel with
  | zero => intro a m x y hf; omega
  | succ fuel ih =>
    intro a m x y hf
    by_cases ha : 1 < a
    · by_cases hm : m = 0
      · subst hm
        rw [modInverseLoop_zero_divisor fuel a x y ha]
        exact fun h => by cases h
      · have hstep : modInverseLoop (fuel + 1) a m x y
            = modInverseLoop fuel m (a.tmod m) y (x - a.tdiv m * y) := by
          simp [modInverseLoop, ha, cdiv_of_ne hm, cmod_of_ne hm]
        rw [hstep]
        apply ih
        have := natAbs_tmod_lt a m (by omega) hm
        omega
    · rw [modInverseLoop_le_one _ _ _ _ _ (not_lt.mp ha)]
      exact fun h => by cases h

theorem modInverse_ne_outOfFuel (a m : Int) : modInverse a m ≠ .outOfFuel := by
  by_cases hm : m = 1
  · subst hm
    simp [modInverse]
  · cases hl : modInverseLoop (m.natAbs + 1) a m 1 0 with
    | outOfFuel => exact absurd hl (modInverseLoop_ne_outOfFuel _ _ _ _ _ (by omega))
    | divByZero =>
      rw [modInverse_of_loop_divByZero _ _ hm hl]
      exact fun h => by cases h
    | ok r =>
      rw [modInverse_of_loop_ok _ _ hm r hl]
      exact fun h => by cases h

/-- On `a ≥ 0`, `m > 1` the call `modInverse a m` returns exactly when `a = 0` or `a` and
`m` are coprime. -/
theorem modInverse_returns_iff (A M : Nat) (hM : 1 < M) :
    (∃ v, modInverse (A : Int) (M : Int) = .ok v) ↔ (A = 0 ∨ Nat.gcd A M = 1) := by
  constructor
  · rintro ⟨v, hv⟩
    by_contra hcon
    push_neg at hcon
    have hA : 1 < A := by
      rcases Nat.lt_or_ge 1 A with h | h
      · exact h
      · have : A = 1 := by omega
        subst this
        simp at hcon
    rw [modInverse_divByZero_of_not_coprime A M hA hcon.2] at hv
    cases hv
  · rintro (rfl | hg)
    · have hM1 : (M : Int) ≠ 1 := by exact_mod_cast (by omega : M ≠ 1)
      refine ⟨_, modInverse_of_loop_ok _ _ hM1 _
        (modInverseLoop_le_one _ _ _ _ _ (by norm_num))⟩
    · obtain ⟨v, hv, _⟩ := modInverse_of_coprime A M hM hg
      exact ⟨v, hv⟩

/-! ## Signing followed by verification -/

/-- If `g ^ q ≡ 1` modulo `P`, a power of `g` depends only on its exponent modulo `q`. -/
theorem pow_modEq_of_exponent (P g : Int) (q : Nat) (hg : g ^ q ≡ 1 [ZMOD P]) (a b : Nat)
    (hab : a % q = b % q) : g ^ a ≡ g ^ b [ZMOD P] := by
  have key : ∀ n : Nat, g ^ n ≡ g ^ (n % q) [ZMOD P] := by
    intro n
    have h1 : g ^ n = (g ^ q) ^ (n / q) * g ^ (n % q) := by
      rw [← pow_mul, ← pow_add, Nat.div_add_mod]
    have h2 : (g ^ q) ^ (n / q) * g ^ (n % q) ≡ 1 ^ (n / q) * g ^ (n % q) [ZMOD P] :=
      (hg.pow _).mul_right _
    rw [one_pow, one_mul] at h2
    rw [h1]
    exact h2
  have := key b
  rw [← hab] at this
  exact (key a).trans this.symm

/-- The derived generator `h ^ ((p - 1) / q) mod p` has order dividing `q`. -/
theorem generator_pow_order (p q h : Nat) (hp : p.Prime) (hdiv : q ∣ p - 1) (hh0 : 0 < h)
    (hhp : h < p) : (((h : Int) ^ ((p - 1) / q)) % p) ^ q ≡ 1 [ZMOD (p : Int)] := by
  have hcop : IsCoprime (h : Int) (p : Int) :=
    Nat.isCoprime_iff_coprime.2 (Nat.coprime_of_lt_prime hh0 hhp hp).symm
  have h1 : (((h : Int) ^ ((p - 1) / q)) % p) ^ q ≡ ((h : Int) ^ ((p - 1) / q)) ^ q
      [ZMOD (p : Int)] := (Int.mod_modEq _ _).pow _
  rw [← pow_mul, Nat.div_mul_cancel hdiv] at h1
  exact h1.trans (Int.ModEq.pow_card_sub_one_eq_one hp hcop)

/-- The values computed by the signing steps of `main`, for an invertible nonce. -/
theorem signingSteps_eq (p q h x k hash1 : Nat) (hp : 1 < p) (hq : 1 < q) (kinv : Int)
    (hkinv : modInverse (k : Int) (q : Int) = .ok kinv) (hk0 : 0 ≤ kinv) :
    ∃ sig, signingSteps p q h x k hash1 = .ok sig ∧
      sig.g = ((h : Int) ^ ((p - 1) / q)) % p ∧
      sig.y = (sig.g ^ x) % p ∧
      sig.r = ((sig.g ^ k) % p) % q ∧
      sig.s = (kinv * (hash1 + x * sig.r)) % q := by
  have hpI : (1 : Int) < (p : Int) := by exact_mod_cast hp
  have hqI : (0 : Int) < (q : Int) := by exact_mod_cast (by omega : 0 < q)
  have hdiv : cdiv ((p : Int) - 1) (q : Int) = .ok (((p - 1) / q : Nat) : Int) := by
    rw [cdiv_of_nonneg (by omega) hqI]
    congr 1
    have : ((p : Int) - 1) = ((p - 1 : Nat) : Int) := by omega
    rw [this]
    norm_cast
  have hg0 : (0 : Int) ≤ ((h : Int) ^ ((p - 1) / q)) % p := Int.emod_nonneg _ (by omega)
  have hr0 : (0 : Int) ≤ (((((h : Int) ^ ((p - 1) / q)) % p) ^ k) % p) % q :=
    Int.emod_nonneg _ (by omega)
  refine ⟨⟨((h : Int) ^ ((p - 1) / q)) % p, ((((h : Int) ^ ((p - 1) / q)) % p) ^ x) % p,
    (((((h : Int) ^ ((p - 1) / q)) % p) ^ k) % p) % q,
    (kinv * (hash1 + x * ((((((h : Int) ^ ((p - 1) / q)) % p) ^ k) % p) % q))) % q⟩,
    ?_, rfl, rfl, rfl, rfl⟩
  have ht0 : (0 : Int) ≤ ((((h : Int) ^ ((p - 1) / q)) % p) ^ k) % p :=
    Int.emod_nonneg _ (by omega)
  simp only [signingSteps, hdiv, bind_ok, modExp_eq _ _ _ (Int.natCast_nonneg h) hpI,
    modExp_eq _ _ _ hg0 hpI, hkinv, cmod_of_nonneg ht0 hqI,
    cmod_of_nonneg (mul_nonneg hk0
      (add_nonneg (Int.natCast_nonneg hash1) (mul_nonneg (Int.natCast_nonneg x) hr0))) hqI,
    pure_eq_ok]

/-- The exponent seen by the verifier, in the field of residues modulo `q`: it is the nonce
`k` shifted by `w` times the difference of the two hashes. -/
theorem verifier_exponent (q hash1 hash2 x k j : Nat) (kinv r s w : Int)
    (hkk : ((k : Int) * kinv) % q = 1) (hs : s = (kinv * (hash1 + x * r)) % q)
    (hw : (s * w) % q = 1)
    (hj : j = (((hash2 : Int) * w) % q).toNat + x * ((r * w) % q).toNat) (hq : 0 < q) :
    (j : ZMod q) = (k : ZMod q) + (w : ZMod q) * ((hash2 : ZMod q) - (hash1 : ZMod q)) ∧
      (s : ZMod q) * (w : ZMod q) = 1 := by
  have hqI : (q : Int) ≠ 0 := by exact_mod_cast (by omega : q ≠ 0)
  have e1 : (k : ZMod q) * (kinv : ZMod q) = 1 := by
    have := congrArg (Int.cast : Int → ZMod q) hkk
    rw [ZMod.intCast_mod] at this
    push_cast at this
    exact this
  have e2 : (s : ZMod q) = (kinv : ZMod q) * ((hash1 : ZMod q) + (x : ZMod q) * (r : ZMod q)) := by
    have := congrArg (Int.cast : Int → ZMod q) hs
    rw [ZMod.intCast_mod] at this
    push_cast at this
    exact this
  have e3 : (s : ZMod q) * (w : ZMod q) = 1 := by
    have := congrArg (Int.cast : Int → ZMod q) hw
    rw [ZMod.intCast_mod] at this
    push_cast at this
    exact this
  have e4 : (j : ZMod q)
      = (hash2 : ZMod q) * (w : ZMod q) + (x : ZMod q) * ((r : ZMod q) * (w : ZMod q)) := by
    have h1 : (((((hash2 : Int) * w) % q).toNat : Nat) : Int) = ((hash2 : Int) * w) % q :=
      Int.toNat_of_nonneg (Int.emod_nonneg _ hqI)
    have h2 : ((((r * w) % q).toNat : Nat) : Int) = (r * w) % q :=
      Int.toNat_of_nonneg (Int.emod_nonneg _ hqI)
    have h3 : ((j : Nat) : Int) = ((hash2 : Int) * w) % q + x * ((r * w) % q) := by
      rw [hj]; push_cast; rw [h1, h2]
    have := congrArg (Int.cast : Int → ZMod q) h3
    push_cast at this
    exact this
  refine ⟨?_, e3⟩
  rw [e4]
  linear_combination (-(w : ZMod q) * ((hash1 : ZMod q) + (x : ZMod q) * (r : ZMod q))) * e1
    - (k : ZMod q) * (w : ZMod q) * e2 + (k : ZMod q) * e3

/-- Signing `hash1` and verifying any `hash2` against the signature: for valid domain
parameters and a nonce `0 < k < q` the signing steps return, and if `s ≥ 1` the verifier
returns with `v = (g ^ j mod p) mod q` for an exponent `j < q` that equals the nonce `k`
exactly when the two hashes agree modulo `q`. -/
theorem verify_after_signing (p q h x k hash1 hash2 : Nat) (hp : p.Prime) (hq : q.Prime)
    (hdiv : q ∣ p - 1) (hh0 : 0 < h) (hhp : h < p) (hk0 : 0 < k) (hkq : k < q) :
    ∃ sig, signingSteps p q h x k hash1 = .ok sig ∧
      sig.r = ((sig.g ^ k) % p) % q ∧
      (1 ≤ sig.s → ∃ (out : VerifyOut) (j : Nat),
        verifySignature p q sig.g sig.y sig.r sig.s hash2 = .ok out ∧ j < q ∧
        out.v = ((sig.g ^ j) % p) % q ∧ (out.valid = true ↔ out.v = sig.r) ∧
        (j = k ↔ hash2 % q = hash1 % q)) := by
  have hp1 : 1 < p := hp.one_lt
  have hq1 : 1 < q := hq.one_lt
  have hpI : (0 : Int) < (p : Int) := by exact_mod_cast (by omega : 0 < p)
  have hqI : (0 : Int) < (q : Int) := by exact_mod_cast (by omega : 0 < q)
  obtain ⟨kinv, hkinv, hkinv0, _, hkk⟩ :=
    modInverse_of_coprime k q hq1 (Nat.coprime_of_lt_prime hk0 hkq hq).symm
  obtain ⟨sig, hsig, hg, hy, hr, hs⟩ := signingSteps_eq p q h x k hash1 hp1 hq1 kinv hkinv hkinv0
  refine ⟨sig, hsig, hr, fun hs1 => ?_⟩
  have hg0 : 0 ≤ sig.g := by rw [hg]; exact Int.emod_nonneg _ (ne_of_gt hpI)
  have hy0 : 0 ≤ sig.y := by rw [hy]; exact Int.emod_nonneg _ (ne_of_gt hpI)
  have hr0 : 0 ≤ sig.r := by rw [hr]; exact Int.emod_nonneg _ (ne_of_gt hqI)
  have hsq : sig.s < q := by rw [hs]; exact Int.emod_lt_of_pos _ hqI
  obtain ⟨S, hS⟩ := Int.eq_ofNat_of_zero_le (by omega : 0 ≤ sig.s)
  have hS0 : 0 < S := by omega
  have hSq : S < q := by omega
  obtain ⟨w, hw, _, _, hsw⟩ :=
    modInverse_of_coprime S q hq1 (Nat.coprime_of_lt_prime hS0 hSq hq).symm
  rw [← hS] at hw hsw
  have hver := verifySignature_eq p q sig.g sig.y sig.r sig.s hash2 (by omega) (by omega)
    hg0 hy0 hr0 (by omega) (Int.natCast_nonneg hash2)
  rw [hw, bind_ok] at hver
  obtain ⟨hzj, hzs⟩ := verifier_exponent q hash1 hash2 x k _ kinv sig.r sig.s w hkk hs hsw rfl
    (by omega)
  refine ⟨_, ((((hash2 : Int) * w) % q).toNat + x * ((sig.r * w) % q).toNat) % q, hver,
    Nat.mod_lt _ (by omega), ?_, by simp [verifySpec], ?_⟩
  · -- the value `v`
    have hord : sig.g ^ q ≡ 1 [ZMOD (p : Int)] := by
      rw [hg]; exact generator_pow_order p q h hp hdiv hh0 hhp
    have h1 : sig.y ^ ((sig.r * w) % q).toNat ≡ sig.g ^ (x * ((sig.r * w) % q).toNat)
        [ZMOD (p : Int)] := by
      rw [hy, pow_mul]
      exact (Int.mod_modEq _ _).pow _
    have h2 : sig.g ^ (((hash2 : Int) * w) % q).toNat * sig.y ^ ((sig.r * w) % q).toNat
        ≡ sig.g ^ ((((hash2 : Int) * w) % q).toNat + x * ((sig.r * w) % q).toNat)
        [ZMOD (p : Int)] := by
      rw [pow_add]
      exact Int.ModEq.mul_left _ h1
    have h3 := h2.trans (pow_modEq_of_exponent (p : Int) sig.g q hord _
      (((((hash2 : Int) * w) % q).toNat + x * ((sig.r * w) % q).toNat) % q)
      (Nat.mod_mod _ _).symm)
    show (sig.g ^ (((hash2 : Int) * w) % q).toNat * sig.y ^ ((sig.r * w) % q).toNat) % p % q
      = _
    rw [h3.eq]
  · -- the exponent meets the nonce exactly when the hashes agree modulo `q`
    have hjz : ((((((hash2 : Int) * w) % q).toNat + x * ((sig.r * w) % q).toNat) % q : Nat)
        : ZMod q) = (k : ZMod q) + (w : ZMod q) * ((hash2 : ZMod q) - (hash1 : ZMod q)) := by
      rw [ZMod.natCast_mod]; exact hzj
    constructor
    · intro hjk
      rw [hjk] at hjz
      have h0 : (w : ZMod q) * ((hash2 : ZMod q) - (hash1 : ZMod q)) = 0 := by
        linear_combination -hjz
      have h1 : (hash2 : ZMod q) - (hash1 : ZMod q) = 0 := by
        linear_combination (sig.s : ZMod q) * h0
          - ((hash2 : ZMod q) - (hash1 : ZMod q)) * hzs
      exact (ZMod.natCast_eq_natCast_iff' hash2 hash1 q).1 (sub_eq_zero.mp h1)
    · intro hh
      have h1 : (hash2 : ZMod q) = (hash1 : ZMod q) :=
        (ZMod.natCast_eq_natCast_iff' hash2 hash1 q).2 hh
      rw [h1, sub_self, mul_zero, add_zero] at hjz
      have := (ZMod.natCast_eq_natCast_iff' _ k q).1 hjz
      rwa [Nat.mod_mod, Nat.mod_eq_of_lt hkq] at this

/-! ## Claims -/

/-- C1: for valid domain parameters (p and q prime, q dividing p - 1, 1 < h < p), every
private key x ≥ 0, every nonce 0 < k < q and every hash1 ≥ 0, the signing steps of the
driver return `g, y, r, s`, and if these pass the guard (r ≥ 1 and s ≥ 1) then
`verifySignature` called with the same hash returns `true`, its `v` being equal to `r`. -/
theorem signature_self_consistency (p q h x k hash1 : Nat) (hp : p.Prime) (hq : q.Prime)
    (hdiv : q ∣ p - 1) (hh1 : 1 < h) (hhp : h < p) (hk0 : 0 < k) (hkq : k < q) :
    ∃ sig, signingSteps p q h x k hash1 = .ok sig ∧
      (1 ≤ sig.r ∧ 1 ≤ sig.s →
        ∃ out, verifySignature p q sig.g sig.y sig.r sig.s hash1 = .ok out ∧
          out.v = sig.r ∧ out.valid = true) := by
  obtain ⟨sig, hsig, _, hver⟩ :=
    verify_after_signing p q h x k hash1 hash1 hp hq hdiv (by omega) hhp hk0 hkq
  refine ⟨sig, hsig, fun hguard => ?_⟩
  obtain ⟨out, j, hout, _, hv, hvalid, hjk⟩ := hver hguard.2
  have hj : j = k := hjk.2 rfl
  have hvr : out.v = sig.r := by
    rw [hv, hj]
    exact (by assumption : sig.r = ((sig.g ^ k) % p) % q).symm
  exact ⟨out, hout, hvr, hvalid.2 hvr⟩

/-- Witness of `signature_self_consistency` at p=23, q=11, h=4, x=3, k=2, hash1=5, where the
signing steps return g=16, y=2, r=3, s=7 and the guard passes. -/
theorem signature_self_consistency_witness :
    Nat.Prime 23 ∧ Nat.Prime 11 ∧ 11 ∣ 23 - 1 ∧ 1 < 4 ∧ 4 < 23 ∧ 0 < 2 ∧ 2 < 11 ∧
    signingSteps (23 : Nat) (11 : Nat) (4 : Nat) (3 : Nat) (2 : Nat) (5 : Nat)
      = .ok ⟨16, 2, 3, 7⟩ ∧ (1 : Int) ≤ 3 ∧ (1 : Int) ≤ 7 ∧
    ∃ sig, signingSteps (23 : Nat) (11 : Nat) (4 : Nat) (3 : Nat) (2 : Nat) (5 : Nat)
        = .ok sig ∧
      (1 ≤ sig.r ∧ 1 ≤ sig.s →
        ∃ out, verifySignature (23 : Nat) (11 : Nat) sig.g sig.y sig.r sig.s (5 : Nat)
            = .ok out ∧ out.v = sig.r ∧ out.valid = true) :=
  ⟨by norm_num, by norm_num, by decide, by decide, by decide, by decide, by decide, by decide,
    by decide, by decide,
    signature_self_consistency 23 11 4 3 2 5 (by norm_num) (by norm_num) (by decide)
      (by decide) (by decide) (by decide) (by decide)⟩

/-- C2 (counterexample): with the valid parameters p=23, q=11, h=4, the key x=3, the nonce
k=3 and hash1=6 the driver computes g=16, y=2, r=2, s=4 and passes the guard; hash2=1
differs from hash1 modulo q, yet the verification with hash2 also returns `true`
(16^10 mod 23 = 13 and 16^3 mod 23 = 2 agree modulo 11). -/
theorem signature_verifies_for_other_hash :
    Nat.Prime 23 ∧ Nat.Prime 11 ∧ 11 ∣ 23 - 1 ∧ 1 < 4 ∧ 4 < 23 ∧ 0 < 3 ∧ 3 < 11 ∧
    (1 : Int) % 11 ≠ 6 % 11 ∧
    signingSteps 23 11 4 3 3 6 = .ok ⟨16, 2, 2, 4⟩ ∧ (1 : Int) ≤ 2 ∧ (1 : Int) ≤ 4 ∧
    verifySignature 23 11 16 2 2 4 1 = .ok ⟨3, 3, 6, 2, true⟩ ∧
    main 23 11 4 3 3 6 1
      = .ok (.completed ⟨16, 2, 2, 4⟩ ⟨3, 7, 6, 2, true⟩ ⟨3, 3, 6, 2, true⟩) :=
  ⟨by norm_num, by norm_num, by decide, by decide, by decide, by decide, by decide, by decide,
    by decide, by decide, by decide, by decide, by decide⟩

/-- C2 (amended): for valid domain parameters, x ≥ 0, 0 < k < q, hash1 ≥ 0 and a signature
`(r, s)` produced by the signing steps that passes the guard, if no other power of the
generator reduces to `r` (for every j with 0 ≤ j < q and j ≠ k, `(g ^ j mod p) mod q ≠ r`),
then for every hash2 ≥ 0 with `hash2 % q ≠ hash1 % q` the call of `verifySignature` with
hash2 returns `false`. -/
theorem signature_rejects_other_hash (p q h x k hash1 hash2 : Nat) (hp : p.Prime)
    (hq : q.Prime) (hdiv : q ∣ p - 1) (hh1 : 1 < h) (hhp : h < p) (hk0 : 0 < k) (hkq : k < q)
    (hne : hash2 % q ≠ hash1 % q) :
    ∃ sig, signingSteps p q h x k hash1 = .ok sig ∧
      (1 ≤ sig.r ∧ 1 ≤ sig.s →
        (∀ j : Nat, j < q → j ≠ k → ((sig.g ^ j) % p) % q ≠ sig.r) →
        ∃ out, verifySignature p q sig.g sig.y sig.r sig.s hash2 = .ok out ∧
          out.valid = false) := by
  obtain ⟨sig, hsig, _, hver⟩ :=
    verify_after_signing p q h x k hash1 hash2 hp hq hdiv (by omega) hhp hk0 hkq
  refine ⟨sig, hsig, fun hguard hinj => ?_⟩
  obtain ⟨out, j, hout, hjq, hv, hvalid, hjk⟩ := hver hguard.2
  have hj : j ≠ k := fun hjeq => hne (hjk.1 hjeq)
  have hvr : out.v ≠ sig.r := by
    rw [hv]
    exact hinj j hjq hj
  refine ⟨out, hout, ?_⟩
  cases hb : out.valid with
  | false => rfl
  | true => exact absurd (hvalid.1 hb) hvr

/-- Witness of `signature_rejects_other_hash` at p=23, q=11, h=4, x=3, k=2, hash1=5,
hash2=9: the signature is g=16, y=2, r=3, s=7 and 16^2 mod 23 = 3 is the only power of 16
below the 11th that reduces to 3 modulo 11. -/
theorem signature_rejects_other_hash_witness :
    Nat.Prime 23 ∧ Nat.Prime 11 ∧ 11 ∣ 23 - 1 ∧ 1 < 4 ∧ 4 < 23 ∧ 0 < 2 ∧ 2 < 11 ∧
    9 % 11 ≠ 5 % 11 ∧
    signingSteps (23 : Nat) (11 : Nat) (4 : Nat) (3 : Nat) (2 : Nat) (5 : Nat)
      = .ok ⟨16, 2, 3, 7⟩ ∧ (1 : Int) ≤ 3 ∧ (1 : Int) ≤ 7 ∧
    (∀ j : Nat, j < 11 → j ≠ 2 → (((16 : Int) ^ j) % (23 : Nat)) % (11 : Nat) ≠ 3) ∧
    ∃ sig, signingSteps (23 : Nat) (11 : Nat) (4 : Nat) (3 : Nat) (2 : Nat) (5 : Nat)
        = .ok sig ∧
      (1 ≤ sig.r ∧ 1 ≤ sig.s →
        (∀ j : Nat, j < (11 : Nat) → j ≠ 2 →
          ((sig.g ^ j) % (23 : Nat)) % (11 : Nat) ≠ sig.r) →
        ∃ out, verifySignature (23 : Nat) (11 : Nat) sig.g sig.y sig.r sig.s (9 : Nat)
            = .ok out ∧ out.valid = false) :=
  ⟨by norm_num, by norm_num, by decide, by decide, by decide, by decide, by decide, by decide,
    by decide, by decide, by decide, by decide,
    signature_rejects_other_hash 23 11 4 3 2 5 9 (by norm_num) (by norm_num) (by decide)
      (by decide) (by decide) (by decide) (by decide) (by decide)⟩

/-- C3: on the inputs p=23, q=11, h=4, x=3, k=2, hash1=5, hash2=9 the driver computes
g=16, y=2, r=3, s=7, passes the guard, and its two verifications disagree: the one with
hash1 reports `true` (v = 3 = r), the one with hash2 reports `false` (v = 5). -/
theorem main_concrete_scenario :
    main 23 11 4 3 2 5 9
      = .ok (.completed ⟨16, 2, 3, 7⟩ ⟨8, 7, 2, 3, true⟩ ⟨8, 6, 2, 5, false⟩) ∧
    verifySignature 23 11 16 2 3 7 5 = .ok ⟨8, 7, 2, 3, true⟩ ∧
    verifySignature 23 11 16 2 3 7 9 = .ok ⟨8, 6, 2, 5, false⟩ := by
  decide

/-- C4 (failing input): with base 5, exponent 0 and modulus 1 the function `modExp` returns
1, whereas `5 ^ 0 mod 1` is 0. -/
theorem modExp_exponent_zero_modulus_one :
    modExp 5 0 1 = .ok 1 ∧ ((5 : Int) ^ 0) % 1 = 0 := by
  decide

/-- C5 (counterexample): 3 and 1 are coprime, `modInverse 3 1` returns 0 through the
`m == 1` guard, and `(3 * 0) mod 1` is 0, not 1. -/
theorem modInverse_modulus_one_not_inverse :
    Int.gcd 3 1 = 1 ∧ modInverse 3 1 = .ok 0 ∧ ((3 : Int) * 0) % 1 ≠ 1 := by
  decide

/-- C5 (amended): for every `a ≥ 0` and every modulus `m > 1` with `gcd(a, m) = 1`,
`modInverse a m` returns a value `v` with `(a * v) mod m = 1`. -/
theorem modInverse_correct (a m : Int) (ha : 0 ≤ a) (hm : 1 < m) (hg : Int.gcd a m = 1) :
    ∃ v, modInverse a m = .ok v ∧ (a * v) % m = 1 := by
  obtain ⟨A, rfl⟩ := Int.eq_ofNat_of_zero_le ha
  obtain ⟨M, rfl⟩ := Int.eq_ofNat_of_zero_le (by omega : 0 ≤ m)
  obtain ⟨v, hv, _, _, h⟩ := modInverse_of_coprime A M (by exact_mod_cast hm)
    (by simpa [Int.gcd] using hg)
  exact ⟨v, hv, h⟩

/-- Witness of `modInverse_correct` at a = 3, m = 7. -/
theorem modInverse_correct_witness :
    (0 : Int) ≤ 3 ∧ (1 : Int) < 7 ∧ Int.gcd 3 7 = 1 ∧
      ∃ v, modInverse 3 7 = .ok v ∧ (3 * v) % 7 = 1 :=
  ⟨by decide, by decide, by decide, modInverse_correct 3 7 (by decide) (by decide) (by decide)⟩

/-- C6 (failing input): 4 and 8 are not coprime, and `modInverse 4 8` does not return 0: its
loop reaches `a = 4`, `m = 0` and the quotient `a / m` throws. -/
theorem modInverse_four_eight_throws :
    Int.gcd 4 8 ≠ 1 ∧ modInverse 4 8 = .divByZero ∧ modInverse 4 8 ≠ .ok 0 := by
  decide

/-- C7 (failing input): the arguments p=5, q=4, g=2, y=2, r=2, s=2, hash=0 are non-negative
with p ≥ 1 and q ≥ 1, yet `verifySignature` outputs nothing there: its first step
`modInverse 2 4` goes (2,4), (4,2), (2,0) and throws on the zero divisor, so the call ends
with the division fault and no `w, u1, u2, v` or flag exists. -/
theorem verifySignature_throws_without_outputs :
    (1 : Int) ≤ 5 ∧ (1 : Int) ≤ 4 ∧ Int.gcd 2 4 ≠ 1 ∧ modInverse 2 4 = .divByZero ∧
    verifySignature 5 4 2 2 2 2 0 = .divByZero ∧
    ¬ ∃ out, verifySignature 5 4 2 2 2 2 0 = .ok out := by
  have hthrow : verifySignature 5 4 2 2 2 2 0 = .divByZero := by decide
  refine ⟨by decide, by decide, by decide, by decide, hthrow, ?_⟩
  rintro ⟨out, hout⟩
  rw [hthrow] at hout
  cases hout

/-- C8 (failing input): on p=5, q=4, h=2, x=1, k=1, hash1=0, hash2=0 the signing steps
return g=2, y=2, r=2, s=2, so the guard does not trip, yet the run does not end with
status 0: the first `verifySignature` call throws inside `modInverse 2 4`. -/
theorem main_guard_passed_but_throws :
    signingSteps 5 4 2 1 1 0 = .ok ⟨2, 2, 2, 2⟩ ∧ ¬((2 : Int) < 1 ∨ (2 : Int) < 1) ∧
    verifySignature 5 4 2 2 2 2 0 = .divByZero ∧
    main 5 4 2 1 1 0 0 = .divByZero := by
  decide

/-- C9 (failing input): on p=23, q=11, h=4, x=3, hash1=5, hash2=9 with the non-invertible
nonce k = q = 11 the run does not end with the guard's status: `modInverse 11 11` throws,
so no run result exists; with k = 0 the guard does reject. -/
theorem main_nonce_equal_q_throws :
    Int.gcd 11 11 ≠ 1 ∧ modInverse 11 11 = .divByZero ∧
    main 23 11 4 3 11 5 9 = .divByZero ∧
    main 23 11 4 3 0 5 9 = .ok (.rejected 16 2) := by
  decide

/-- C10: for every `a ≥ 0` and every modulus `m > 1`, every value returned by
`modInverse a m` lies in `[0, m)`; a value is returned exactly when `a = 0` or
`gcd(a, m) = 1`. -/
theorem modInverse_in_residue_range (a m : Int) (ha : 0 ≤ a) (hm : 1 < m) :
    (∀ v, modInverse a m = .ok v → 0 ≤ v ∧ v < m) ∧
    ((∃ v, modInverse a m = .ok v) ↔ (a = 0 ∨ Int.gcd a m = 1)) := by
  obtain ⟨A, rfl⟩ := Int.eq_ofNat_of_zero_le ha
  obtain ⟨M, rfl⟩ := Int.eq_ofNat_of_zero_le (by omega : 0 ≤ m)
  have hM : 1 < M := by exact_mod_cast hm
  refine ⟨fun v hv => modInverse_range_nat A M hM v hv, ?_⟩
  rw [modInverse_returns_iff A M hM]
  simp [Int.gcd]

/-- Witness of `modInverse_in_residue_range` at a = 3, m = 7, where the returned value
is 5. -/
theorem modInverse_in_residue_range_witness :
    (0 : Int) ≤ 3 ∧ (1 : Int) < 7 ∧ modInverse 3 7 = .ok 5 ∧ (0 : Int) ≤ 5 ∧ (5 : Int) < 7 :=
  ⟨by decide, by decide, by decide,
    (modInverse_in_residue_range 3 7 (by decide) (by decide)).1 5 (by decide)⟩

/-! ## Further facts used by the remaining claims -/

/-- On `b ≥ 0`, `e ≥ 0`, `m > 1` the function `modExp` returns a residue modulo `m`. -/
theorem modExp_range (b e m : Int) (hb : 0 ≤ b) (he : 0 ≤ e) (hm : 1 < m) :
    ∃ v, modExp b e m = .ok v ∧ 0 ≤ v ∧ v < m := by
  obtain ⟨n, rfl⟩ := Int.eq_ofNat_of_zero_le he
  exact ⟨_, modExp_eq b m n hb hm, Int.emod_nonneg _ (by omega),
    Int.emod_lt_of_pos _ (by omega)⟩

/-- The call `modInverse 0 q` returns 0 for every modulus. -/
theorem modInverse_zero (q : Int) : modInverse 0 q = .ok 0 := by
  by_cases hq : q = 1
  · subst hq
    simp [modInverse]
  · rw [modInverse_of_loop_ok 0 q hq _ (modInverseLoop_le_one _ _ _ _ _ (by norm_num))]
    simp

theorem cmod_one_of_one_lt {m : Int} (hm : 1 < m) : cmod 1 m = .ok 1 := by
  rw [cmod_of_nonneg (by norm_num) (by omega), Int.emod_eq_of_lt (by norm_num) hm]

theorem cmod_zero_left {m : Int} (hm : m ≠ 0) : cmod 0 m = .ok 0 := by
  rw [cmod_of_ne hm, Int.zero_tmod]

/-- With `s = 0` the verifier computes `w = u1 = u2 = 0` and `v = 1`, whatever `g`, `y` and
the hash are. -/
theorem verifySignature_s_zero (p q g y r hash : Int) (hp : 1 < p) (hq : 1 < q) :
    verifySignature p q g y r 0 hash = .ok ⟨0, 0, 0, 1, decide ((1 : Int) = r)⟩ := by
  have hq0 : q ≠ 0 := by omega
  have hpow : ∀ b : Int, pow b 0 = .ok 1 := fun b => by
    simpa using pow_eq b 0
  simp only [verifySignature, modInverse_zero, bind_ok, mul_zero, cmod_zero_left hq0, hpow,
    mul_one, cmod_one_of_one_lt hp, cmod_one_of_one_lt hq, pure_eq_ok]

/-- On `b ≥ 0`, `m ≥ 1` the value returned by `modExp` is non-negative and congruent to the
exact power modulo `m` (also when `m = 1`, where it may be 1 rather than 0). -/
theorem modExp_modEq (b m : Int) (n : Nat) (hb : 0 ≤ b) (hm : 1 ≤ m) :
    ∃ v, modExp b (n : Int) m = .ok v ∧ 0 ≤ v ∧ v ≡ b ^ n [ZMOD m] := by
  refine ⟨_, modExp_nat b m n hb (by omega), ?_, ?_⟩
  · split_ifs
    · norm_num
    · exact Int.emod_nonneg _ (by omega)
  · split_ifs with h0
    · subst h0
      rw [pow_zero]
    · exact Int.mod_modEq _ _

/-- The final double reduction gives the same value on exact and on reduced powers. -/
theorem reduced_powers_agree (p q g y : Int) (n1 n2 : Nat) (hp : 1 ≤ p) (hq : 1 ≤ q)
    (hg : 0 ≤ g) (hy : 0 ≤ y) :
    ∃ m1 m2, modExp g (n1 : Int) p = .ok m1 ∧ modExp y (n2 : Int) p = .ok m2 ∧
      (cmod (m1 * m2) p >>= fun t => cmod t q) = .ok (((g ^ n1 * y ^ n2) % p) % q) ∧
      (cmod (g ^ n1 * y ^ n2) p >>= fun t => cmod t q) = .ok (((g ^ n1 * y ^ n2) % p) % q) := by
  obtain ⟨m1, h1, h10, h1e⟩ := modExp_modEq g p n1 hg hp
  obtain ⟨m2, h2, h20, h2e⟩ := modExp_modEq y p n2 hy hp
  have hp0 : 0 < p := by omega
  have hq0 : 0 < q := by omega
  refine ⟨m1, m2, h1, h2, ?_, ?_⟩
  · rw [cmod_of_nonneg (mul_nonneg h10 h20) hp0, bind_ok,
      cmod_of_nonneg (Int.emod_nonneg _ (ne_of_gt hp0)) hq0, (h1e.mul h2e).eq]
  · rw [cmod_of_nonneg (mul_nonneg (pow_nonneg hg _) (pow_nonneg hy _)) hp0, bind_ok,
      cmod_of_nonneg (Int.emod_nonneg _ (ne_of_gt hp0)) hq0]

/-- On non-negative arguments with `p ≥ 1`, `q ≥ 1`, the reduced verifier is `modInverse`
followed by the steps of the specification, like `verifySignature` itself. -/
theorem verifySignatureReduced_eq (p q g y r s hash : Int) (hp : 1 ≤ p) (hq : 1 ≤ q)
    (hg : 0 ≤ g) (hy : 0 ≤ y) (hr : 0 ≤ r) (hs : 0 ≤ s) (hh : 0 ≤ hash) :
    verifySignatureReduced p q g y r s hash
      = (modInverse s q >>= fun w => Outcome.ok (verifySpec p q g y r hash w)) := by
  cases hw : modInverse s q with
  | divByZero => simp [verifySignatureReduced, hw]
  | outOfFuel => simp [verifySignatureReduced, hw]
  | ok w =>
    have hw0 : 0 ≤ w := modInverse_nonneg s q w hs hq hw
    have hq0 : 0 < q := by omega
    have hu1 : (0 : Int) ≤ (hash * w) % q := Int.emod_nonneg _ (ne_of_gt hq0)
    have hu2 : (0 : Int) ≤ (r * w) % q := Int.emod_nonneg _ (ne_of_gt hq0)
    obtain ⟨n1, hn1⟩ := Int.eq_ofNat_of_zero_le hu1
    obtain ⟨n2, hn2⟩ := Int.eq_ofNat_of_zero_le hu2
    obtain ⟨m1, m2, h1, h2, h3, _⟩ := reduced_powers_agree p q g y n1 n2 hp hq hg hy
    have h3b : (cmod (m1 * m2) p >>= fun t =>
        cmod t q >>= fun v => (Outcome.ok ⟨w, (n1 : Int), (n2 : Int), v, decide (v = r)⟩
          : Outcome VerifyOut))
        = .ok ⟨w, n1, n2, ((g ^ n1 * y ^ n2) % p) % q,
            decide (((g ^ n1 * y ^ n2) % p) % q = r)⟩ := by
      cases hc : cmod (m1 * m2) p with
      | divByZero => rw [hc] at h3; cases h3
      | outOfFuel => rw [hc] at h3; cases h3
      | ok t =>
        rw [hc, bind_ok] at h3
        rw [bind_ok, h3, bind_ok]
    simp only [verifySignatureReduced, hw, bind_ok, cmod_of_nonneg (mul_nonneg hh hw0) hq0,
      cmod_of_nonneg (mul_nonneg hr hw0) hq0, hn1, hn2, h1, h2, pure_eq_ok, verifySpec,
      Int.toNat_natCast]
    exact h3b

/-- The inverse returned by `modInverse` for a modulus `q ≥ 1` is never negative, whatever
the sign of its first argument. -/
theorem modInverse_nonneg_of_modulus_pos (s q w : Int) (hq : 1 ≤ q)
    (h : modInverse s q = .ok w) : 0 ≤ w := by
  rcases le_or_lt 0 s with hs | hs
  · exact modInverse_nonneg s q w hs hq h
  · by_cases hq1 : q = 1
    · subst hq1
      simp [modInverse] at h
      omega
    · rw [modInverse_of_loop_ok s q hq1 _ (modInverseLoop_le_one _ _ _ _ _ (by omega))] at h
      have hs1 : s ≠ 1 := by omega
      simp [hs1] at h
      omega

/-- Two non-negative hashes with the same residue modulo `q` give the same outcome of
`verifySignature`, for arguments of any sign. -/
theorem verifySignature_congr_hash (p q g y r s hash hash2 : Int) (hq : 1 ≤ q)
    (h0 : 0 ≤ hash) (h2 : 0 ≤ hash2) (hmod : hash % q = hash2 % q) :
    verifySignature p q g y r s hash = verifySignature p q g y r s hash2 := by
  cases hw : modInverse s q with
  | divByZero => simp [verifySignature, hw]
  | outOfFuel => simp [verifySignature, hw]
  | ok w =>
    have hw0 : 0 ≤ w := modInverse_nonneg_of_modulus_pos s q w hq hw
    have hq0 : 0 < q := by omega
    have he : (hash * w) % q = (hash2 * w) % q := Int.ModEq.mul_right w hmod
    simp only [verifySignature, hw, bind_ok, cmod_of_nonneg (mul_nonneg h0 hw0) hq0,
      cmod_of_nonneg (mul_nonneg h2 hw0) hq0, he]

/-- The values `r`, `s` computed by the signing steps on non-negative inputs with `p ≥ 1`,
`q ≥ 1` are residues modulo `q`. -/
theorem signingSteps_range (p q h x k hash1 : Int) (hp : 1 ≤ p) (hq : 1 ≤ q) (hh : 0 ≤ h)
    (hx : 0 ≤ x) (hk : 0 ≤ k) (hhash : 0 ≤ hash1) (sig : Signed)
    (hsig : signingSteps p q h x k hash1 = .ok sig) :
    0 ≤ sig.r ∧ sig.r < q ∧ 0 ≤ sig.s ∧ sig.s < q := by
  have hq0 : 0 < q := by omega
  have hdiv : cdiv (p - 1) q = .ok ((p - 1) / q) := cdiv_of_nonneg (by omega) hq0
  obtain ⟨n, hn⟩ := Int.eq_ofNat_of_zero_le (Int.ediv_nonneg (by omega : 0 ≤ p - 1) (by omega : 0 ≤ q))
  obtain ⟨X, rfl⟩ := Int.eq_ofNat_of_zero_le hx
  obtain ⟨K, rfl⟩ := Int.eq_ofNat_of_zero_le hk
  obtain ⟨g, hg, hg0, _⟩ := modExp_modEq h p n hh hp
  obtain ⟨y, hy, _, _⟩ := modExp_modEq g p X hg0 hp
  obtain ⟨t, ht, ht0, _⟩ := modExp_modEq g p K hg0 hp
  have hr0 : (0 : Int) ≤ t % q := Int.emod_nonneg _ (ne_of_gt hq0)
  cases hki : modInverse (K : Int) q with
  | divByZero => simp [signingSteps, hdiv, hn, hg, hy, hki] at hsig
  | outOfFuel => simp [signingSteps, hdiv, hn, hg, hy, hki] at hsig
  | ok kinv =>
    have hkinv0 : 0 ≤ kinv := modInverse_nonneg _ q kinv (Int.natCast_nonneg K) hq hki
    simp only [signingSteps, hdiv, hn, hg, hy, hki, ht, bind_ok, cmod_of_nonneg ht0 hq0,
      cmod_of_nonneg (mul_nonneg hkinv0
        (add_nonneg hhash (mul_nonneg (Int.natCast_nonneg X) hr0))) hq0, pure_eq_ok] at hsig
    injection hsig with hsig
    subst hsig
    exact ⟨hr0, Int.emod_lt_of_pos _ hq0, Int.emod_nonneg _ (ne_of_gt hq0),
      Int.emod_lt_of_pos _ hq0⟩

/-- A run of `main` that completes has computed its signature by the signing steps and has
passed the guard. -/
theorem main_completed (p q h x k hash1 hash2 : Int) (sig : Signed) (first second : VerifyOut)
    (hrun : main p q h x k hash1 hash2 = .ok (.completed sig first second)) :
    signingSteps p q h x k hash1 = .ok sig ∧ ¬(sig.r < 1 ∨ sig.s < 1) := by
  cases hs : signingSteps p q h x k hash1 with
  | divByZero => simp [main, hs] at hrun
  | outOfFuel => simp [main, hs] at hrun
  | ok sig2 =>
    simp only [main, hs, bind_ok] at hrun
    by_cases hguard : sig2.r < 1 ∨ sig2.s < 1
    · simp [hguard] at hrun
    · rw [if_neg hguard] at hrun
      cases h1 : verifySignature p q sig2.g sig2.y sig2.r sig2.s hash1 with
      | divByZero => simp [h1] at hrun
      | outOfFuel => simp [h1] at hrun
      | ok o1 =>
        cases h2 : verifySignature p q sig2.g sig2.y sig2.r sig2.s hash2 with
        | divByZero => simp [h1, h2] at hrun
        | outOfFuel => simp [h1, h2] at hrun
        | ok o2 =>
          simp only [h1, h2, bind_ok, pure_eq_ok] at hrun
          injection hrun with hrun
          injection hrun with e1 e2 e3
          subst e1
          exact ⟨rfl, hguard⟩

/-- Inverses modulo `m` are unique up to congruence. -/
theorem inverse_unique_modEq (m x y z : Int) (hy : (x * y) % m = 1 % m)
    (hz : (x * z) % m = 1 % m) : y ≡ z [ZMOD m] := by
  have h1 : y * (x * z) ≡ y * 1 [ZMOD m] := Int.ModEq.mul_left y hz
  have h2 : z * (x * y) ≡ z * 1 [ZMOD m] := Int.ModEq.mul_left z hy
  have e : y * (x * z) = z * (x * y) := by ring
  rw [e, mul_one] at h1
  rw [mul_one] at h2
  exact h1.symm.trans h2

/-- On `a ≥ 0`, `m > 1` coprime, inverting the inverse returned by `modInverse` gives back
`a mod m`, and `modInverse` returns the same inverse for `a` and for `a mod m`. -/
theorem modInverse_twice (A M : Nat) (hM : 1 < M) (hg : Nat.gcd A M = 1) :
    ∃ v, modInverse (A : Int) (M : Int) = .ok v ∧
      modInverse v (M : Int) = .ok ((A : Int) % M) ∧
      modInverse ((A : Int) % M) (M : Int) = .ok v := by
  have hM2 : (1 : Int) < (M : Int) := by exact_mod_cast hM
  have hone : (1 : Int) % M = 1 := Int.emod_eq_of_lt (by norm_num) hM2
  obtain ⟨v, hv, hv0, hvM, hav⟩ := modInverse_of_coprime A M hM hg
  obtain ⟨V, rfl⟩ := Int.eq_ofNat_of_zero_le hv0
  have hVA : V * A ≡ 1 [MOD M] := by
    apply Int.natCast_modEq_iff.1
    push_cast
    rw [mul_comm]
    show ((A : Int) * V) % M = 1 % M
    rw [hav, hone]
  have hVg : Nat.gcd V M = 1 := Nat.coprime_of_mul_modEq_one A hVA
  obtain ⟨v2, hv2, hv20, hv2M, hvv2⟩ := modInverse_of_coprime V M hM hVg
  have hv2eq : v2 = (A : Int) % M := by
    have h := inverse_unique_modEq (M : Int) (V : Int) v2 (A : Int) (by rw [hvv2, hone])
      (by rw [mul_comm, hav, hone])
    have h2 : v2 % (M : Int) = (A : Int) % M := h
    rwa [Int.emod_eq_of_lt hv20 hv2M] at h2
  have hAMg : Nat.gcd (A % M) M = 1 := by
    rw [← Nat.gcd_rec, Nat.gcd_comm]; exact hg
  obtain ⟨v3, hv3, hv30, hv3M, hav3⟩ := modInverse_of_coprime (A % M) M hM hAMg
  have hv3eq : v3 = (V : Int) := by
    have hA3 : ((A : Int) * v3) % M = 1 % M := by
      have : ((A % M : Nat) : Int) * v3 ≡ (A : Int) * v3 [ZMOD (M : Int)] := by
        apply Int.ModEq.mul_right
        push_cast
        exact Int.mod_modEq _ _
      rw [← this.eq, hav3, hone]
    have h := inverse_unique_modEq (M : Int) (A : Int) v3 (V : Int) hA3 (by rw [hav, hone])
    have h2 : v3 % (M : Int) = (V : Int) % M := h
    rwa [Int.emod_eq_of_lt hv30 hv3M, Int.emod_eq_of_lt hv0 hvM] at h2
  refine ⟨V, hv, ?_, ?_⟩
  · rw [hv2, hv2eq]
  · have : ((A % M : Nat) : Int) = (A : Int) % M := by push_cast; rfl
    rw [← this, hv3, hv3eq]

/-- Once the loop of `modInverse` ends within its fuel, more fuel leaves its outcome
unchanged. -/
theorem modInverseLoop_fuel_irrelevant (fuel : Nat) : ∀ (extra : Nat) (a m x y : Int),
    modInverseLoop fuel a m x y ≠ .outOfFuel →
    modInverseLoop (fuel + extra) a m x y = modInverseLoop fuel a m x y := by
  induction fuel with
  | zero =>
    intro extra a m x y h
    by_cases ha : 1 < a
    · simp [modInverseLoop, ha] at h
    · rw [modInverseLoop_le_one _ _ _ _ _ (not_lt.mp ha),
        modInverseLoop_le_one _ _ _ _ _ (not_lt.mp ha)]
  | succ fuel ih =>
    intro extra a m x y h
    by_cases ha : 1 < a
    · have e : fuel + 1 + extra = (fuel + extra) + 1 := by omega
      rw [e]
      by_cases hm : m = 0
      · subst hm
        rw [modInverseLoop_zero_divisor _ a x y ha, modInverseLoop_zero_divisor _ a x y ha]
      · have hstep : ∀ f, modInverseLoop (f + 1) a m x y
            = modInverseLoop f m (a.tmod m) y (x - a.tdiv m * y) := by
          intro f
          simp [modInverseLoop, ha, cdiv_of_ne hm, cmod_of_ne hm]
        rw [hstep] at h ⊢
        rw [hstep]
        exact ih extra _ _ _ _ h
    · rw [modInverseLoop_le_one _ _ _ _ _ (not_lt.mp ha),
        modInverseLoop_le_one _ _ _ _ _ (not_lt.mp ha)]

/-! ## Claims, continued -/

/-- C11: for all p, q, h with 1 < q < p and 1 < h < p the driver's quotient `(p - 1) / q`
and generator `g = modExp(h, (p - 1) / q, p)` are computed without fault and `0 ≤ g < p`;
more generally for b ≥ 0, e ≥ 0, m > 1 the call `modExp(b, e, m)` returns a value in
`[0, m)`. -/
theorem generator_is_residue (p q h : Int) (hq1 : 1 < q) (hqp : q < p) (hh1 : 1 < h)
    (_hhp : h < p) :
    (∃ temp g, cdiv (p - 1) q = .ok temp ∧ modExp h temp p = .ok g ∧ 0 ≤ g ∧ g < p) ∧
    (∀ b e m : Int, 0 ≤ b → 0 ≤ e → 1 < m → ∃ v, modExp b e m = .ok v ∧ 0 ≤ v ∧ v < m) := by
  refine ⟨?_, fun b e m hb he hm => modExp_range b e m hb he hm⟩
  have hdiv : cdiv (p - 1) q = .ok ((p - 1) / q) := cdiv_of_nonneg (by omega) (by omega)
  have hquot : 0 ≤ (p - 1) / q := Int.ediv_nonneg (by omega) (by omega)
  obtain ⟨g, hg, hg0, hgp⟩ := modExp_range h ((p - 1) / q) p (by omega) hquot (by omega)
  exact ⟨_, g, hdiv, hg, hg0, hgp⟩

/-- Witness of `generator_is_residue` at p = 23, q = 11, h = 4, where the quotient is 2 and
the generator is 16. -/
theorem generator_is_residue_witness :
    (1 : Int) < 11 ∧ (11 : Int) < 23 ∧ (1 : Int) < 4 ∧ (4 : Int) < 23 ∧
    cdiv (23 - 1) 11 = .ok 2 ∧ modExp 4 2 23 = .ok 16 ∧
    ∃ temp g, cdiv (23 - 1) 11 = .ok temp ∧ modExp 4 temp 23 = .ok g ∧ 0 ≤ g ∧ g < 23 :=
  ⟨by decide, by decide, by decide, by decide, by decide, by decide,
    (generator_is_residue 23 11 4 (by decide) (by decide) (by decide) (by decide)).1⟩

/-- C12: for every integer b and every exponent e ≥ 0 the function `pow` returns the exact
power `b ^ e`, with no reduction; in particular `pow(b, 0) = 1`. -/
theorem pow_exact (b e : Int) (he : 0 ≤ e) :
    pow b e = .ok (b ^ e.toNat) ∧ pow b 0 = .ok 1 :=
  ⟨pow_of_nonneg b e he, by simpa using pow_eq b 0⟩

/-- Witness of `pow_exact` at b = -3, e = 5, where the power is -243. -/
theorem pow_exact_witness :
    (0 : Int) ≤ 5 ∧ pow (-3) 5 = .ok (-243) ∧
    (pow (-3) 5 = .ok ((-3) ^ (5 : Int).toNat) ∧ pow (-3) 0 = .ok 1) :=
  ⟨by decide, by decide, pow_exact (-3) 5 (by decide)⟩

/-- C16: for every p > 1, q > 1, every g, y and every hash, `verifySignature` called with
`(r, s) = (1, 0)` sets w = 0, u1 = 0, u2 = 0, v = 1 and returns `true`; more generally with
s = 0 it returns with v = 1, and its result is `true` if and only if r = 1. -/
theorem verifySignature_degenerate (p q g y hash : Int) (hp : 1 < p) (hq : 1 < q) :
    verifySignature p q g y 1 0 hash = .ok ⟨0, 0, 0, 1, true⟩ ∧
    ∀ r : Int, ∃ out, verifySignature p q g y r 0 hash = .ok out ∧
      out.w = 0 ∧ out.u1 = 0 ∧ out.u2 = 0 ∧ out.v = 1 ∧ (out.valid = true ↔ r = 1) := by
  constructor
  · rw [verifySignature_s_zero p q g y 1 hash hp hq]
    rfl
  · intro r
    refine ⟨_, verifySignature_s_zero p q g y r hash hp hq, rfl, rfl, rfl, rfl, ?_⟩
    simp [eq_comm]

/-- Witness of `verifySignature_degenerate` at p = 23, q = 11, g = 16, y = 2, hash = 9. -/
theorem verifySignature_degenerate_witness :
    (1 : Int) < 23 ∧ (1 : Int) < 11 ∧
    verifySignature 23 11 16 2 1 0 9 = .ok ⟨0, 0, 0, 1, true⟩ :=
  ⟨by decide, by decide,
    (verifySignature_degenerate 23 11 16 2 9 (by decide) (by decide)).1⟩

/-- C13: for all non-negative g, y, u1, u2 and all p ≥ 1, q ≥ 1, the calls `pow(g, u1)`,
`pow(y, u2)`, `modExp(g, u1, p)`, `modExp(y, u2, p)` all return, and reducing the product of
the two exact powers modulo p and then modulo q gives the same value as reducing the product
of the two reduced powers; hence `verifySignature` with `pow` replaced by `modExp` returns
the same outputs and flag on all non-negative arguments. -/
theorem reduced_and_exact_powers_agree (p q g y u1 u2 : Int) (hp : 1 ≤ p) (hq : 1 ≤ q)
    (hg : 0 ≤ g) (hy : 0 ≤ y) (hu1 : 0 ≤ u1) (hu2 : 0 ≤ u2) :
    (∃ t1 t2 m1 m2 v, pow g u1 = .ok t1 ∧ pow y u2 = .ok t2 ∧
      modExp g u1 p = .ok m1 ∧ modExp y u2 p = .ok m2 ∧
      (cmod (t1 * t2) p >>= fun t => cmod t q) = .ok v ∧
      (cmod (m1 * m2) p >>= fun t => cmod t q) = .ok v) ∧
    (∀ r s hash : Int, 0 ≤ r → 0 ≤ s → 0 ≤ hash →
      verifySignatureReduced p q g y r s hash = verifySignature p q g y r s hash) := by
  constructor
  · obtain ⟨n1, rfl⟩ := Int.eq_ofNat_of_zero_le hu1
    obtain ⟨n2, rfl⟩ := Int.eq_ofNat_of_zero_le hu2
    obtain ⟨m1, m2, h1, h2, h3, h4⟩ := reduced_powers_agree p q g y n1 n2 hp hq hg hy
    exact ⟨_, _, m1, m2, _, pow_eq g n1, pow_eq y n2, h1, h2, h4, h3⟩
  · intro r s hash hr hs hh
    rw [verifySignatureReduced_eq p q g y r s hash hp hq hg hy hr hs hh,
      verifySignature_eq p q g y r s hash hp hq hg hy hr hs hh]

/-- Witness of `reduced_and_exact_powers_agree` at p = 23, q = 11, g = 16, y = 2, u1 = 7,
u2 = 2, where both reductions give 3. -/
theorem reduced_and_exact_powers_agree_witness :
    (1 : Int) ≤ 23 ∧ (1 : Int) ≤ 11 ∧ pow 16 7 = .ok 268435456 ∧ modExp 16 7 23 = .ok 18 ∧
    (cmod (268435456 * 4) 23 >>= fun t => cmod t 11) = .ok 3 ∧
    (cmod (18 * 4) 23 >>= fun t => cmod t 11) = .ok 3 ∧
    verifySignatureReduced 23 11 16 2 3 7 5 = verifySignature 23 11 16 2 3 7 5 :=
  ⟨by decide, by decide, by decide, by decide, by decide, by decide,
    (reduced_and_exact_powers_agree 23 11 16 2 7 2 (by decide) (by decide) (by decide)
      (by decide) (by decide) (by decide)).2 3 7 5 (by decide) (by decide) (by decide)⟩

/-- C14: for all non-negative inputs with p ≥ 1 and q ≥ 1, whenever the signing steps of
the driver return `r` and `s` and the guard does not trip (so that the driver reports them),
`1 ≤ r < q` and `1 ≤ s < q`; the same holds for the signature of every completed run. -/
theorem accepted_signature_in_range (p q h x k hash1 : Int) (hp : 1 ≤ p) (hq : 1 ≤ q)
    (hh : 0 ≤ h) (hx : 0 ≤ x) (hk : 0 ≤ k) (hhash : 0 ≤ hash1) (sig : Signed) :
    (signingSteps p q h x k hash1 = .ok sig → ¬(sig.r < 1 ∨ sig.s < 1) →
      1 ≤ sig.r ∧ sig.r < q ∧ 1 ≤ sig.s ∧ sig.s < q) ∧
    (∀ (hash2 : Int) (first second : VerifyOut),
      main p q h x k hash1 hash2 = .ok (.completed sig first second) →
      1 ≤ sig.r ∧ sig.r < q ∧ 1 ≤ sig.s ∧ sig.s < q) := by
  have key : signingSteps p q h x k hash1 = .ok sig → ¬(sig.r < 1 ∨ sig.s < 1) →
      1 ≤ sig.r ∧ sig.r < q ∧ 1 ≤ sig.s ∧ sig.s < q := by
    intro hsig hguard
    obtain ⟨_, h2, _, h4⟩ := signingSteps_range p q h x k hash1 hp hq hh hx hk hhash sig hsig
    push_neg at hguard
    exact ⟨hguard.1, h2, hguard.2, h4⟩
  refine ⟨key, fun hash2 first second hrun => ?_⟩
  obtain ⟨hsig, hguard⟩ := main_completed p q h x k hash1 hash2 sig first second hrun
  exact key hsig hguard

/-- Witness of `accepted_signature_in_range` at p=23, q=11, h=4, x=3, k=2, hash1=5, where
the reported signature is r = 3, s = 7. -/
theorem accepted_signature_in_range_witness :
    (1 : Int) ≤ 23 ∧ (1 : Int) ≤ 11 ∧ signingSteps 23 11 4 3 2 5 = .ok ⟨16, 2, 3, 7⟩ ∧
    ¬((3 : Int) < 1 ∨ (7 : Int) < 1) ∧
    ((1 : Int) ≤ 3 ∧ (3 : Int) < 11 ∧ (1 : Int) ≤ 7 ∧ (7 : Int) < 11) :=
  ⟨by decide, by decide, by decide, by decide,
    (accepted_signature_in_range 23 11 4 3 2 5 (by decide) (by decide) (by decide)
      (by decide) (by decide) (by decide) ⟨16, 2, 3, 7⟩).1 (by decide) (by decide)⟩

/-- C15: for all p, q, g, y, r, s with q ≥ 1 and all hashes hash, hash2 ≥ 0 with the same
residue modulo q, the two calls of `verifySignature` have the same outcome: identical w, u1,
u2, v and flag (or the same fault); in particular the outcome for `hash + q` is the outcome
for `hash`. -/
theorem verification_sees_hash_mod_q (p q g y r s hash hash2 : Int) (hq : 1 ≤ q)
    (h0 : 0 ≤ hash) (h2 : 0 ≤ hash2) (hmod : hash % q = hash2 % q) :
    verifySignature p q g y r s hash = verifySignature p q g y r s hash2 ∧
    verifySignature p q g y r s (hash + q) = verifySignature p q g y r s hash :=
  ⟨verifySignature_congr_hash p q g y r s hash hash2 hq h0 h2 hmod,
    verifySignature_congr_hash p q g y r s (hash + q) hash hq (by omega) h0
      (Int.add_emod_self)⟩

/-- Witness of `verification_sees_hash_mod_q` at p=23, q=11, g=16, y=2, r=3, s=7 with the
hashes 5 and 16: both calls return w=8, u1=7, u2=2, v=3 and `true`. -/
theorem verification_sees_hash_mod_q_witness :
    (1 : Int) ≤ 11 ∧ (0 : Int) ≤ 5 ∧ (0 : Int) ≤ 16 ∧ (5 : Int) % 11 = 16 % 11 ∧
    verifySignature 23 11 16 2 3 7 5 = .ok ⟨8, 7, 2, 3, true⟩ ∧
    verifySignature 23 11 16 2 3 7 5 = verifySignature 23 11 16 2 3 7 16 :=
  ⟨by decide, by decide, by decide, by decide, by decide,
    (verification_sees_hash_mod_q 23 11 16 2 3 7 5 16 (by decide) (by decide) (by decide)
      (by decide)).1⟩

/-- C17: for every modulus m > 1 and every a ≥ 1 with gcd(a, m) = 1, `modInverse(a, m)`
returns a value v, `modInverse(v, m)` returns `a % m`, and `modInverse(a % m, m)` returns the
same v. -/
theorem modInverse_involution (a m : Int) (ha : 1 ≤ a) (hm : 1 < m) (hg : Int.gcd a m = 1) :
    ∃ v, modInverse a m = .ok v ∧ modInverse v m = .ok (a % m) ∧
      modInverse (a % m) m = .ok v := by
  obtain ⟨A, rfl⟩ := Int.eq_ofNat_of_zero_le (by omega : 0 ≤ a)
  obtain ⟨M, rfl⟩ := Int.eq_ofNat_of_zero_le (by omega : 0 ≤ m)
  exact modInverse_twice A M (by exact_mod_cast hm) (by simpa [Int.gcd] using hg)

/-- Witness of `modInverse_involution` at a = 10, m = 7: the inverse is 5, the inverse of 5
is 3 = 10 % 7, and the inverse of 3 is 5. -/
theorem modInverse_involution_witness :
    (1 : Int) ≤ 10 ∧ (1 : Int) < 7 ∧ Int.gcd 10 7 = 1 ∧ modInverse 10 7 = .ok 5 ∧
    modInverse 5 7 = .ok 3 ∧ modInverse 3 7 = .ok 5 ∧
    ∃ v, modInverse 10 7 = .ok v ∧ modInverse v 7 = .ok (10 % 7) ∧
      modInverse (10 % 7) 7 = .ok v :=
  ⟨by decide, by decide, by decide, by decide, by decide, by decide,
    modInverse_involution 10 7 (by decide) (by decide) (by decide)⟩

/-- C18: for every a ≥ 0 and every m ≥ 1 the loop of `modInverse` ends within `m + 1`
iterations, by reaching `a ≤ 1` or by reaching the divisor 0 (where the quotient throws), and
more fuel does not change its outcome; each iteration replaces the divisor `m` by the
remainder `a % m`, which is non-negative and strictly smaller; so `modInverse` always ends,
with a returned value or with the division fault. -/
theorem modInverse_halts (a m : Int) (ha : 0 ≤ a) (hm : 1 ≤ m) :
    (∀ x y : Int, modInverseLoop (m.toNat + 1) a m x y ≠ .outOfFuel) ∧
    (∀ (extra : Nat) (x y : Int), modInverseLoop (m.toNat + 1 + extra) a m x y
      = modInverseLoop (m.toNat + 1) a m x y) ∧
    (0 ≤ a.tmod m ∧ a.tmod m < m) ∧
    (∀ (a2 m2 : Int), 1 < a2 → 0 < m2 → (0 ≤ a2.tmod m2 ∧ a2.tmod m2 < m2) ∧
      ∀ (fuel : Nat) (x y : Int), modInverseLoop (fuel + 1) a2 m2 x y
        = modInverseLoop fuel m2 (a2.tmod m2) y (x - a2.tdiv m2 * y)) ∧
    ((∃ v, modInverse a m = .ok v) ∨ modInverse a m = .divByZero) := by
  have hfuel : ∀ x y : Int, modInverseLoop (m.toNat + 1) a m x y ≠ .outOfFuel :=
    fun x y => modInverseLoop_ne_outOfFuel _ a m x y (by omega)
  refine ⟨hfuel, fun extra x y => modInverseLoop_fuel_irrelevant _ extra a m x y (hfuel x y),
    ⟨Int.tmod_nonneg m ha, Int.tmod_lt_of_pos a (by omega)⟩, ?_, ?_⟩
  · intro a2 m2 ha2 hm2
    refine ⟨⟨Int.tmod_nonneg m2 (by omega), Int.tmod_lt_of_pos a2 hm2⟩, fun fuel x y => ?_⟩
    simp [modInverseLoop, ha2, cdiv_of_ne (ne_of_gt hm2), cmod_of_ne (ne_of_gt hm2)]
  · cases h : modInverse a m with
    | ok v => exact Or.inl ⟨v, rfl⟩
    | divByZero => exact Or.inr rfl
    | outOfFuel => exact absurd h (modInverse_ne_outOfFuel a m)

/-- Witness of `modInverse_halts` at a = 4, m = 8, where the loop ends after two iterations
on the divisor 0, and at the same time within the 9 iterations of the bound. -/
theorem modInverse_halts_witness :
    (0 : Int) ≤ 4 ∧ (1 : Int) ≤ 8 ∧ modInverseLoop 3 4 8 1 0 = .divByZero ∧
    modInverseLoop ((8 : Int).toNat + 1) 4 8 1 0 ≠ .outOfFuel ∧
    ((∃ v, modInverse 4 8 = .ok v) ∨ modInverse 4 8 = .divByZero) :=
  ⟨by decide, by decide, by decide,
    (modInverse_halts 4 8 (by decide) (by decide)).1 1 0,
    (modInverse_halts 4 8 (by decide) (by decide)).2.2.2.2⟩

end DSA
